import Mathlib

/-!
# Verification of bccc's feed-model core

Shallow embedding of the data model and operations of the bccc repository:

* `src/bccc/client/atom.py` — the `Atom` value and `UpdatableAtomsList`
  (the spec's OrderedAtomSet);
* `src/bccc/ui/cache.py` — the per-channel persistent `Cache`
  (the spec's FeedCache), modelled on its in-store state;
* `src/bccc/ui/thread.py` and `src/bccc/ui/item.py` — `ThreadList` /
  `ThreadsWalker` (the spec's Thread / ThreadAssembler) and the display row
  widgets.

Python exceptions are modelled with `Except`; machine-level concerns (XML
parsing, locking, timers, disk I/O) are outside the embedded state, which
captures exactly the data the Python code reads and writes.
-/

/-- The Python exceptions that the embedded code can raise. -/
inductive PyErr where
  | atomError
  | attributeError
  | indexError
  | keyError
  | typeError
  deriving DecidableEq, Repr

/-! ## `bisect.bisect_left`

`bisect.bisect_left(a, x, lo, hi)` from the Python standard library, used by
`UpdatableAtomsList.add`, `Cache.add_item` (inlined there) and
`ThreadsWalker.add`.  The comparison `a[mid] < x` is abstracted into
`cond mid`:

    while lo < hi:
        mid = (lo+hi)//2
        if a[mid] < x: lo = mid+1
        else: hi = mid
    return lo
-/
def bisectGo (cond : Nat → Bool) : Nat → Nat → Nat → Nat
  | 0, lo, _ => lo
  | fuel + 1, lo, hi =>
    if lo < hi then
      if cond ((lo + hi) / 2) then bisectGo cond fuel ((lo + hi) / 2 + 1) hi
      else bisectGo cond fuel lo ((lo + hi) / 2)
    else lo

def bisectAux (cond : Nat → Bool) (lo hi : Nat) : Nat :=
  bisectGo cond (hi - lo) lo hi

theorem le_bisectGo (cond : Nat → Bool) (fuel lo hi : Nat) :
    lo ≤ bisectGo cond fuel lo hi := by
  induction fuel generalizing lo hi with
  | zero => exact Nat.le_refl lo
  | succ fuel ih =>
    simp only [bisectGo]
    split
    · split
      · have := ih ((lo + hi) / 2 + 1) hi
        omega
      · exact ih lo ((lo + hi) / 2)
    · exact Nat.le_refl lo

theorem bisectGo_le (cond : Nat → Bool) (fuel lo hi : Nat) (h : lo ≤ hi) :
    bisectGo cond fuel lo hi ≤ hi := by
  induction fuel generalizing lo hi with
  | zero => exact h
  | succ fuel ih =>
    simp only [bisectGo]
    split
    · rename_i hlt
      split
      · exact ih ((lo + hi) / 2 + 1) hi (by omega)
      · have := ih lo ((lo + hi) / 2) (by omega)
        omega
    · exact h

theorem le_bisectAux (cond : Nat → Bool) (lo hi : Nat) : lo ≤ bisectAux cond lo hi :=
  le_bisectGo cond (hi - lo) lo hi

theorem bisectAux_le (cond : Nat → Bool) (lo hi : Nat) (h : lo ≤ hi) :
    bisectAux cond lo hi ≤ hi :=
  bisectGo_le cond (hi - lo) lo hi h

theorem bisectGo_spec (cond : Nat → Bool) (fuel lo hi : Nat) (hfuel : hi - lo ≤ fuel)
    (hmono : ∀ i j, lo ≤ i → i ≤ j → j < hi → cond j = true → cond i = true) :
    (∀ i, lo ≤ i → i < bisectGo cond fuel lo hi → cond i = true) ∧
    (∀ i, bisectGo cond fuel lo hi ≤ i → i < hi → cond i = false) := by
  induction fuel generalizing lo hi with
  | zero =>
    have : hi ≤ lo := by omega
    simp only [bisectGo]
    exact ⟨fun i h1 h2 => absurd (Nat.lt_of_le_of_lt h1 h2) (by omega),
           fun i h1 h2 => by omega⟩
  | succ fuel ih =>
    simp only [bisectGo]
    split
    · rename_i hlt
      split
      · rename_i hcond
        have ihr := ih ((lo + hi) / 2 + 1) hi (by omega)
          (fun i j hi' hij hj hc => hmono i j (by omega) hij hj hc)
        refine ⟨fun i h1 h2 => ?_, ihr.2⟩
        by_cases hmid : (lo + hi) / 2 + 1 ≤ i
        · exact ihr.1 i hmid h2
        · exact hmono i ((lo + hi) / 2) h1 (by omega) (by omega) hcond
      · rename_i hcond
        have ihr := ih lo ((lo + hi) / 2) (by omega)
          (fun i j hi' hij hj hc => hmono i j hi' hij (by omega) hc)
        refine ⟨ihr.1, fun i h1 h2 => ?_⟩
        by_cases hmid : i < (lo + hi) / 2
        · exact ihr.2 i h1 hmid
        · by_cases hC : cond i = true
          · have : cond ((lo + hi) / 2) = true :=
              hmono ((lo + hi) / 2) i (by omega) (by omega) h2 hC
            simp only [this] at hcond
            exact absurd hcond (by simp)
          · simpa using hC
    · exact ⟨fun i h1 h2 => absurd (Nat.lt_of_le_of_lt h1 h2) (by omega),
             fun i h1 h2 => by omega⟩

/-- Everything strictly below the returned insertion point satisfies `cond`,
provided the region `[lo, hi)` is "sorted" for `cond` (true-prefix shape). -/
theorem bisectAux_spec (cond : Nat → Bool) (lo hi : Nat)
    (hmono : ∀ i j, lo ≤ i → i ≤ j → j < hi → cond j = true → cond i = true) :
    (∀ i, lo ≤ i → i < bisectAux cond lo hi → cond i = true) ∧
    (∀ i, bisectAux cond lo hi ≤ i → i < hi → cond i = false) :=
  bisectGo_spec cond (hi - lo) lo hi (Nat.le_refl _) hmono

/-- `bisect.bisect_left` with raising comparisons: the comparison may raise
a Python exception (used where list elements are looked up in a store or
lack an attribute). -/
def bisectGoE (cond : Nat → Except PyErr Bool) : Nat → Nat → Nat → Except PyErr Nat
  | 0, lo, _ => .ok lo
  | fuel + 1, lo, hi =>
    if lo < hi then
      match cond ((lo + hi) / 2) with
      | .error e => .error e
      | .ok true => bisectGoE cond fuel ((lo + hi) / 2 + 1) hi
      | .ok false => bisectGoE cond fuel lo ((lo + hi) / 2)
    else .ok lo

def bisectAuxE (cond : Nat → Except PyErr Bool) (lo hi : Nat) : Except PyErr Nat :=
  bisectGoE cond (hi - lo) lo hi

theorem bisectGoE_eq_ok (cond : Nat → Except PyErr Bool) (p : Nat → Bool)
    (fuel lo hi : Nat)
    (h : ∀ i, lo ≤ i → i < hi → cond i = .ok (p i)) :
    bisectGoE cond fuel lo hi = .ok (bisectGo p fuel lo hi) := by
  induction fuel generalizing lo hi with
  | zero => rfl
  | succ fuel ih =>
    simp only [bisectGoE, bisectGo]
    split
    · rename_i hlt
      rw [h ((lo + hi) / 2) (by omega) (by omega)]
      by_cases hp : p ((lo + hi) / 2) = true
      · rw [hp]
        simp only [if_true]
        exact ih ((lo + hi) / 2 + 1) hi (fun i h1 h2 => h i (by omega) h2)
      · rw [Bool.not_eq_true] at hp
        rw [hp]
        simp only [if_false]
        exact ih lo ((lo + hi) / 2) (fun i h1 h2 => h i h1 (by omega))
    · rfl

/-- When no comparison raises, the raising bisect agrees with the pure one. -/
theorem bisectAuxE_eq_ok (cond : Nat → Except PyErr Bool) (p : Nat → Bool) (lo hi : Nat)
    (h : ∀ i, lo ≤ i → i < hi → cond i = .ok (p i)) :
    bisectAuxE cond lo hi = .ok (bisectAux p lo hi) :=
  bisectGoE_eq_ok cond p (hi - lo) lo hi h

/-! ## The `Atom` value (`src/bccc/client/atom.py`, class `Atom`)

An `Atom` wraps one parsed feed entry; the class exposes the element's
fields through accessors.  The embedding records the values those accessors
produce: `id`, `author`, `content`, `object_type`, `published`, `updated`
(absent ⇒ the accessor raises `AttributeError`, modelled as `none` — the one
caller, `Cache._atom_to_entry`, catches exactly that).

`inReplyTo` records whether the wrapped entry carries a
`thr:in-reply-to` element and its `ref` value: `none` means the element is
absent from the XML, in which case the `in_reply_to` accessor (atom.py line
80, `self.get_child("in-reply-to", ATOM_THR_NS).attrib["ref"]`) reads
`.attrib` on the `None` that `get_child` returns and raises
`AttributeError` — see `Atom.inReplyToE` below.

Modelled from the spec: only the `tombstone` flag (spec §3, glossary
"Tombstone").  `src/bccc/ui/item.py` consumes it
(`PostWidget.tombstone = self._item.tombstone`) but the `Atom` class under
`src/` predates it and has no such attribute. -/
structure Atom where
  id : String
  author : String
  content : String
  objectType : String
  inReplyTo : Option String
  published : Nat
  updated : Option Nat
  tombstone : Bool
  deriving DecidableEq, Repr, Inhabited

/-- `Atom.in_reply_to` (atom.py line 80): when the `thr:in-reply-to`
element is absent, `get_child` returns `None` and reading `.attrib` on it
raises `AttributeError`; otherwise the `ref` attribute is returned. -/
def Atom.inReplyToE (a : Atom) : Except PyErr String :=
  match a.inReplyTo with
  | none => .error .attributeError
  | some r => .ok r

/-- `Atom.__lt__`: `self.published > other.published` ("`>`" to sort by
newest first). -/
def Atom.lt (a b : Atom) : Bool := b.published < a.published

/-! ## `UpdatableAtomsList` (`src/bccc/client/atom.py`)

A sorted list of Atoms plus the set of its live iterators.  Each iterator
object carries one integer attribute named `_idx` (set in `__init__`); the
embedding represents an iterator by that integer.  Python attribute lookup
on an iterator is modelled explicitly, because `add` reads the attribute
`_idx` while `remove` reads `idx` — and only `_idx` exists. -/
structure UpdatableAtomsList where
  list : List Atom
  iterators : List Int
  deriving DecidableEq, Repr

def UpdatableAtomsList.empty : UpdatableAtomsList := { list := [], iterators := [] }

/-- `getattr(iterator, name)` for the integer attribute of an iterator
object: the class's `__init__` defines `_list` and `_idx`; the only integer
attribute is `_idx`, and looking up any other name (in particular `idx`)
raises `AttributeError`. -/
def iteratorGetAttr (idxAttr : Int) (name : String) : Except PyErr Int :=
  if name = "_idx" then .ok idxAttr else .error .attributeError

/-- `UpdatableAtomsList.__contains__`: compares only ids. -/
def UpdatableAtomsList.contains (st : UpdatableAtomsList) (a : Atom) : Bool :=
  st.list.any (fun x => x.id == a.id)

/-- The iterator-update loop of `add`:
`for it in self._iterators: if it._idx >= pos: it._idx += 1`. -/
def advanceIters (pos : Nat) : List Int → Except PyErr (List Int)
  | [] => .ok []
  | it :: rest =>
    match iteratorGetAttr it "_idx" with
    | .error e => .error e
    | .ok v =>
      match advanceIters pos rest with
      | .error e => .error e
      | .ok rest' => .ok ((if (pos : Int) ≤ v then v + 1 else v) :: rest')

theorem advanceIters_eq_ok (pos : Nat) (l : List Int) :
    advanceIters pos l = .ok (l.map fun v => if (pos : Int) ≤ v then v + 1 else v) := by
  induction l with
  | nil => rfl
  | cons it rest ih => simp [advanceIters, iteratorGetAttr, ih]

/-- `UpdatableAtomsList.add(elt)`: raises `AtomError` on an unrecognized
object type; returns `None` when an atom with the same id is already in the
list; otherwise inserts at the `bisect_left` position and advances every
iterator whose `_idx` is at or after it, returning the atom. -/
def UpdatableAtomsList.add (st : UpdatableAtomsList) (a : Atom) :
    Except PyErr (Option Atom × UpdatableAtomsList) :=
  if ¬(a.objectType = "note" ∨ a.objectType = "comment") then .error .atomError
  else if st.contains a then .ok (none, st)
  else
    let pos := bisectAux (fun i => Atom.lt (st.list.getD i default) a) 0 st.list.length
    match advanceIters pos st.iterators with
    | .error e => .error e
    | .ok its => .ok (some a, { list := st.list.insertIdx pos a, iterators := its })

/-- The iterator-update loop of `remove`:
`for it in self._iterators: if it.idx >= pos: it.idx -= 1`.
Note the attribute name in the source is `idx`, not `_idx`. -/
def removeIters (pos : Nat) : List Int → Except PyErr (List Int)
  | [] => .ok []
  | it :: rest =>
    match iteratorGetAttr it "idx" with
    | .error e => .error e
    | .ok v =>
      match removeIters pos rest with
      | .error e => .error e
      | .ok rest' => .ok ((if (pos : Int) ≤ v then v - 1 else v) :: rest')

/-- `UpdatableAtomsList.remove(id_)`: no-op when the id is absent; otherwise
deletes the element and then runs the iterator-update loop.  An exception in
that loop escapes after the deletion already happened, so the error carries
the partially-mutated object state (list mutated, iterators untouched). -/
def UpdatableAtomsList.remove (st : UpdatableAtomsList) (id_ : String) :
    Except (PyErr × UpdatableAtomsList) UpdatableAtomsList :=
  match st.list.findIdx? (fun a => a.id == id_) with
  | none => .ok st
  | some pos =>
    let st' : UpdatableAtomsList := { st with list := st.list.eraseIdx pos }
    match removeIters pos st.iterators with
    | .error e => .error (e, st')
    | .ok its => .ok { st' with iterators := its }

/-- Newest-first sortedness: `published` is non-increasing along the list. -/
def sortedNewestFirst (l : List Atom) : Prop :=
  l.Pairwise (fun x y => y.published ≤ x.published)

/-- Running a sequence of `add` calls.  A raised `AtomError` happens before
any mutation, so the state at the next call is unchanged. -/
def runAdds (st : UpdatableAtomsList) : List Atom → UpdatableAtomsList
  | [] => st
  | a :: rest =>
    match st.add a with
    | .ok (_, st') => runAdds st' rest
    | .error _ => runAdds st rest

/-- Inserting at a position that splits strictly-greater keys from
less-or-equal keys preserves non-increasing key order. -/
theorem pairwise_insertIdx_key {α : Type} (key : α → Nat) {l : List α} {a : α} {pos : Nat}
    (hpos : pos ≤ l.length)
    (hsort : l.Pairwise (fun x y => key y ≤ key x))
    (h1 : ∀ i (hi : i < l.length), i < pos → key a < key (l.get ⟨i, hi⟩))
    (h2 : ∀ i (hi : i < l.length), pos ≤ i → key (l.get ⟨i, hi⟩) ≤ key a) :
    (l.insertIdx pos a).Pairwise (fun x y => key y ≤ key x) := by
  induction pos generalizing l with
  | zero =>
    rw [List.insertIdx_zero]
    refine List.Pairwise.cons (fun y hy => ?_) hsort
    obtain ⟨i, hi, rfl⟩ := List.mem_iff_get.mp hy
    exact h2 i.1 i.2 (Nat.zero_le _)
  | succ pos ih =>
    match l with
    | [] => simp at hpos
    | x :: xs =>
      rw [List.insertIdx_succ_cons]
      rcases List.pairwise_cons.mp hsort with ⟨hx, hxs⟩
      refine List.Pairwise.cons (fun y hy => ?_) ?_
      · rcases (List.mem_insertIdx (Nat.le_of_succ_le_succ hpos)).mp hy with rfl | hmem
        · have := h1 0 (by simp) (Nat.succ_pos _)
          simpa using Nat.le_of_lt this
        · exact hx y hmem
      · exact ih (Nat.le_of_succ_le_succ hpos) hxs
          (fun i hi hlt => h1 (i + 1) (by simpa using Nat.succ_lt_succ hi)
            (Nat.succ_lt_succ hlt))
          (fun i hi hge => h2 (i + 1) (by simpa using Nat.succ_lt_succ hi)
            (Nat.succ_le_succ hge))

/-- The state invariant of `UpdatableAtomsList`: newest-first order and
id-uniqueness. -/
def ualInv (st : UpdatableAtomsList) : Prop :=
  sortedNewestFirst st.list ∧ (st.list.map Atom.id).Nodup

theorem ualInv_empty : ualInv UpdatableAtomsList.empty := by
  constructor <;> simp [UpdatableAtomsList.empty, sortedNewestFirst]

/-- Characterization of a successful fresh insertion by `add` on a sorted
list: the insertion point splits strictly-newer atoms from older-or-equal
ones, the new list is the old one with `a` inserted there, and every
iterator at or after the point moves forward by one. -/
theorem UpdatableAtomsList.add_fresh (st : UpdatableAtomsList) (a : Atom)
    (hty : a.objectType = "note" ∨ a.objectType = "comment")
    (hsort : sortedNewestFirst st.list)
    (hid : ∀ x ∈ st.list, x.id ≠ a.id) :
    ∃ pos, pos ≤ st.list.length ∧
      (∀ i (hi : i < st.list.length), i < pos →
        a.published < (st.list.get ⟨i, hi⟩).published) ∧
      (∀ i (hi : i < st.list.length), pos ≤ i →
        (st.list.get ⟨i, hi⟩).published ≤ a.published) ∧
      st.add a = .ok (some a,
        { list := st.list.insertIdx pos a,
          iterators := st.iterators.map fun v => if (pos : Int) ≤ v then v + 1 else v }) := by
  have hcont : st.contains a = false := by
    simp only [UpdatableAtomsList.contains, List.any_eq_false]
    intro x hx
    simpa using hid x hx
  have hpw := (List.pairwise_iff_getElem (R := fun x y : Atom => y.published ≤ x.published)).mp hsort
  have hcondeq : ∀ i (hi : i < st.list.length),
      (fun i => Atom.lt (st.list.getD i default) a) i =
        decide (a.published < st.list[i].published) := by
    intro i hi
    simp [Atom.lt, List.getD_eq_getElem?_getD, List.getElem?_eq_getElem hi]
  have hmono : ∀ i j, 0 ≤ i → i ≤ j → j < st.list.length →
      (fun i => Atom.lt (st.list.getD i default) a) j = true →
      (fun i => Atom.lt (st.list.getD i default) a) i = true := by
    intro i j _ hij hj hc
    have hi : i < st.list.length := Nat.lt_of_le_of_lt hij hj
    rw [hcondeq j hj] at hc
    rw [hcondeq i hi]
    have hji : st.list[j].published ≤ st.list[i].published := by
      rcases Nat.eq_or_lt_of_le hij with rfl | hlt
      · exact Nat.le_refl _
      · exact hpw i j hi hj hlt
    simp only [decide_eq_true_eq] at hc ⊢
    omega
  have hspec := bisectAux_spec (fun i => Atom.lt (st.list.getD i default) a)
    0 st.list.length hmono
  refine ⟨bisectAux (fun i => Atom.lt (st.list.getD i default) a) 0 st.list.length,
    bisectAux_le _ 0 _ (Nat.zero_le _), ?_, ?_, ?_⟩
  · intro i hi hlt
    have := hspec.1 i (Nat.zero_le _) hlt
    rw [hcondeq i hi] at this
    simpa using this
  · intro i hi hge
    have := hspec.2 i hge hi
    rw [hcondeq i hi] at this
    simpa using Nat.le_of_not_lt (by simpa using this)
  · simp only [UpdatableAtomsList.add, hty, hcont]
    rw [advanceIters_eq_ok]
    simp [hty]

/-- `add` preserves the sortedness / id-uniqueness invariant. -/
theorem ualInv_add (st : UpdatableAtomsList) (a : Atom) (r : Option Atom × UpdatableAtomsList)
    (hinv : ualInv st) (h : st.add a = .ok r) : ualInv r.2 := by
  rcases hinv with ⟨hsort, hnodup⟩
  by_cases hty : a.objectType = "note" ∨ a.objectType = "comment"
  · by_cases hid : ∀ x ∈ st.list, x.id ≠ a.id
    · obtain ⟨pos, hpos, h1, h2, heq⟩ := st.add_fresh a hty hsort hid
      rw [heq] at h
      cases h
      constructor
      · exact pairwise_insertIdx_key Atom.published hpos hsort h1 h2
      · have hperm : (st.list.insertIdx pos a).Perm (a :: st.list) :=
          List.perm_insertIdx a st.list hpos
        rw [(hperm.map Atom.id).nodup_iff]
        simp only [List.map_cons, List.nodup_cons]
        refine ⟨fun hmem => ?_, hnodup⟩
        obtain ⟨x, hx, hxe⟩ := List.mem_map.mp hmem
        exact hid x hx hxe
    · have hcont : st.contains a = true := by
        simp only [UpdatableAtomsList.contains, List.any_eq_true]
        push_neg at hid
        obtain ⟨x, hx, hxeq⟩ := hid
        exact ⟨x, hx, by simpa using hxeq⟩
      simp only [UpdatableAtomsList.add, hty, hcont] at h
      simp only [not_true_eq_false, if_false, if_true] at h
      have hr : r = (none, st) := by
        injection h with h'
        exact h'.symm
      rw [hr]
      exact ⟨hsort, hnodup⟩
  · simp [UpdatableAtomsList.add, hty] at h

theorem ualInv_runAdds (st : UpdatableAtomsList) (atoms : List Atom) (hinv : ualInv st) :
    ualInv (runAdds st atoms) := by
  induction atoms generalizing st with
  | nil => exact hinv
  | cons a rest ih =>
    simp only [runAdds]
    cases h : st.add a with
    | ok r => exact ih _ (ualInv_add st a r hinv h)
    | error e => exact ih _ hinv

/-- C2. For every sequence of `add` calls starting from an empty
`UpdatableAtomsList`, the resulting internal list is sorted newest-first by
`published` and contains no two atoms with the same id. -/
theorem orderedAtomSet_sorted_nodup (atoms : List Atom) :
    sortedNewestFirst (runAdds UpdatableAtomsList.empty atoms).list ∧
    ((runAdds UpdatableAtomsList.empty atoms).list.map Atom.id).Nodup :=
  ualInv_runAdds UpdatableAtomsList.empty atoms ualInv_empty

/-- What a fresh insertion must produce: a sorted insertion point,
the record returned, and every iterator at or after the point advanced. -/
def addFreshInsertSpec (st : UpdatableAtomsList) (a : Atom) : Prop :=
  ∃ pos st',
    st.add a = .ok (some a, st') ∧
    pos ≤ st.list.length ∧
    (∀ i (hi : i < st.list.length), i < pos →
      a.published < (st.list.get ⟨i, hi⟩).published) ∧
    (∀ i (hi : i < st.list.length), pos ≤ i →
      (st.list.get ⟨i, hi⟩).published ≤ a.published) ∧
    st'.list = st.list.insertIdx pos a ∧
    sortedNewestFirst st'.list ∧
    st'.iterators = st.iterators.map fun v => if (pos : Int) ≤ v then v + 1 else v

/-- C3 (amended). For a record with a recognized object type, `add` is a
no-op returning `None` if and only if an atom with the same id is already
present — full content is never compared; otherwise it inserts the record at
its sorted position, returns it, and advances the affected iterators. -/
theorem add_noop_iff_id_present (st : UpdatableAtomsList) (a : Atom)
    (hty : a.objectType = "note" ∨ a.objectType = "comment")
    (hsort : sortedNewestFirst st.list) :
    ((∃ x ∈ st.list, x.id = a.id) → st.add a = .ok (none, st)) ∧
    ((∀ x ∈ st.list, x.id ≠ a.id) → addFreshInsertSpec st a) := by
  constructor
  · intro ⟨x, hx, hxe⟩
    have hcont : st.contains a = true := by
      simp only [UpdatableAtomsList.contains, List.any_eq_true]
      exact ⟨x, hx, by simpa using hxe⟩
    simp [UpdatableAtomsList.add, hty, hcont]
  · intro hid
    obtain ⟨pos, hpos, h1, h2, heq⟩ := st.add_fresh a hty hsort hid
    exact ⟨pos, _, heq, hpos, h1, h2, rfl,
      pairwise_insertIdx_key Atom.published hpos hsort h1 h2, rfl⟩

/-- An atom cached in the witness list. -/
def atomB : Atom :=
  { id := "b", author := "bea", content := "second", objectType := "note",
    inReplyTo := none, published := 5, updated := none, tombstone := false }

/-- A fresh atom, newer than `atomB`. -/
def atomA : Atom :=
  { id := "a", author := "ann", content := "first", objectType := "note",
    inReplyTo := none, published := 9, updated := none, tombstone := false }

/-- A one-element list with one live iterator positioned at index 0. -/
def ualW : UpdatableAtomsList := { list := [atomB], iterators := [0] }

/-- Witness for C3's theorem at a concrete input. -/
theorem add_noop_iff_id_present_witness :
    ((atomA.objectType = "note" ∨ atomA.objectType = "comment") ∧
      ualW.list.Pairwise (fun x y => y.published ≤ x.published)) ∧
    (((∃ x ∈ ualW.list, x.id = atomA.id) → ualW.add atomA = .ok (none, ualW)) ∧
      ((∀ x ∈ ualW.list, x.id ≠ atomA.id) → addFreshInsertSpec ualW atomA)) :=
  ⟨⟨by decide, by decide⟩,
    add_noop_iff_id_present ualW atomA (by decide)
      (by unfold sortedNewestFirst; decide)⟩

/-- The cached version of an item. -/
def atomOld : Atom :=
  { id := "dup", author := "carol", content := "old text", objectType := "note",
    inReplyTo := none, published := 5, updated := none, tombstone := false }

/-- Same id as `atomOld` but different content. -/
def atomNew : Atom := { atomOld with content := "new text" }

/-- The list already holding `atomOld`. -/
def ualDup : UpdatableAtomsList := { list := [atomOld], iterators := [] }

/-- C3 counterexample: an incoming record whose id is present but whose
content differs is still a no-op returning `None` — `add` never compares
content, contradicting the claimed "same id AND equal by full content"
condition. -/
theorem add_ignores_content_counterexample :
    atomNew.content ≠ atomOld.content ∧ atomNew.id = atomOld.id ∧
    atomNew.objectType = "note" ∧
    ualDup.add atomNew = .ok (none, ualDup) :=
  ⟨by decide, by decide, by decide, by rfl⟩

/-- The newer of the two atoms in the C1 failing input. -/
def atomRmA : Atom :=
  { id := "a", author := "ann", content := "newest", objectType := "note",
    inReplyTo := none, published := 1, updated := none, tombstone := false }

/-- The older of the two atoms in the C1 failing input. -/
def atomRmB : Atom :=
  { id := "b", author := "bea", content := "older", objectType := "note",
    inReplyTo := none, published := 0, updated := none, tombstone := false }

/-- A list with one live iterator that has just yielded `atomRmA`
(its `_idx` attribute is 0). -/
def ualRm : UpdatableAtomsList := { list := [atomRmA, atomRmB], iterators := [0] }

/-- C1: `remove` on a list with any live iterator raises `AttributeError`
(its loop reads the attribute `idx`, but iterator objects only define
`_idx`), after the element is deleted and **without** shifting any cursor:
the iterator stays at 0 instead of moving back to -1, so the remaining atom
`atomRmB` would be skipped.  This contradicts the class's own docstring
("can be dynamically modified without invalidating its iterators"). -/
theorem remove_live_iterator_attribute_error :
    ualRm.remove "a" =
      .error (.attributeError, { list := [atomRmB], iterators := [0] }) := by
  rfl

/-! ## `Cache` (`src/bccc/ui/cache.py`)

The persistent per-channel store, modelled on the contents of its shelve db:
the `"items"` key (an ordered id list, absent until first use), and the
`"item-<id>"` entries.  An entry is the pair `(upd, xml)` built by
`Cache._atom_to_entry`: the `updated` timestamp (falling back to `published`
when the accessor raises `AttributeError`) and the serialized element, which
determines the atom, so it is modelled by the atom itself.  In the store the
bijective key `"item-" + id` is represented by `id`.  The lock and the
debounced-flush timer (`_update`/`sync`) do not change the stored data and
are outside the model; `max_items` is the class attribute `Cache.max_items`
(200), carried in the state. -/
structure CacheEntry where
  ts : Nat
  xml : Atom
  deriving DecidableEq, Repr

/-- `Cache._atom_to_entry`. -/
def atomToEntry (a : Atom) : CacheEntry :=
  { ts := a.updated.getD a.published, xml := a }

def storeGet (s : List (String × CacheEntry)) (id : String) : Option CacheEntry :=
  match s with
  | [] => none
  | p :: rest => if p.1 == id then some p.2 else storeGet rest id

def storeSet (s : List (String × CacheEntry)) (id : String) (e : CacheEntry) :
    List (String × CacheEntry) :=
  match s with
  | [] => [(id, e)]
  | p :: rest => if p.1 == id then (id, e) :: rest else p :: storeSet rest id e

/-- `del self._db[key]`: raises `KeyError` when the key is absent. -/
def storeDel (s : List (String × CacheEntry)) (id : String) :
    Except PyErr (List (String × CacheEntry)) :=
  if (storeGet s id).isSome then .ok (s.filter (fun p => p.1 != id))
  else .error .keyError

structure CacheState where
  maxItems : Nat
  itemsKey : Option (List String)
  store : List (String × CacheEntry)
  deriving DecidableEq, Repr

/-- A freshly created cache db. -/
def CacheState.emptyCache (maxItems : Nat) : CacheState :=
  { maxItems := maxItems, itemsKey := none, store := [] }

/-- The ordered id list (`self._db["items"]`, `[]` when the key is absent). -/
def CacheState.items (st : CacheState) : List String := st.itemsKey.getD []

/-- Cache-ordering timestamp of an id in a store (0 when absent; the
invariant guarantees presence wherever it is read). -/
def tsOf (s : List (String × CacheEntry)) (id : String) : Nat :=
  ((storeGet s id).map CacheEntry.ts).getD 0

/-- Cache-ordering timestamp of a cached id. -/
def tsD (st : CacheState) (id : String) : Nat := tsOf st.store id

/-- `datetime.datetime.fromtimestamp(0)`, the `Cache.never` sentinel. -/
def Cache.neverTs : Nat := 0

/-- The eviction loop of `add_item`:
`while len(ids) > Cache.max_items: id = ids.pop(); del self._db["item-"+id]`. -/
def evictLoop (maxItems : Nat) (ids : List String) (s : List (String × CacheEntry)) :
    Except PyErr (List String × List (String × CacheEntry)) :=
  if _h : maxItems < ids.length then
    match ids.getLast? with
    | none => .error .indexError
    | some last =>
      match storeDel s last with
      | .error e => .error e
      | .ok s' => evictLoop maxItems (ids.dropLast) s'
  else .ok (ids, s)
termination_by ids.length
decreasing_by
  simp only [List.length_dropLast]
  omega

/-- `Cache.add_item(atom)` (`src/bccc/ui/cache.py`, lines 148-197). -/
def Cache.addItem (st : CacheState) (atom : Atom) : Except PyErr (Bool × CacheState) :=
  let aid := atom.id
  let entry := atomToEntry atom
  match st.itemsKey with
  | none =>
    .ok (true, { st with itemsKey := some [aid], store := storeSet st.store aid entry })
  | some ids =>
    if ids.length = 0 then
      .ok (true, { st with itemsKey := some [aid], store := storeSet st.store aid entry })
    else
      -- Is the item already in cache?
      match (if aid ∈ ids then
               match storeGet st.store aid with
               | none => .error .keyError
               | some cached => .ok (if cached = entry then none else some (ids.erase aid))
             else .ok (some ids) : Except PyErr (Option (List String))) with
      | .error e => .error e
      | .ok none => .ok (false, st)
      | .ok (some ids₁) =>
        -- Is the item too old to be in cache?
        let tooOld : Except PyErr Bool :=
          if st.maxItems ≤ ids₁.length then
            match ids₁.getLast? with
            | none => .error .indexError
            | some lastId =>
              match storeGet st.store lastId with
              | none => .error .keyError
              | some oldest => .ok (entry.ts < oldest.ts)
          else .ok false
        match tooOld with
        | .error e => .error e
        | .ok true => .ok (true, st)
        | .ok false =>
          -- Insert new entry, preserving the order (newest items first)
          match bisectAuxE (fun mid =>
              match storeGet st.store (ids₁.getD mid "") with
              | none => .error .keyError
              | some midEntry => .ok (entry.ts < midEntry.ts)) 0 ids₁.length with
          | .error e => .error e
          | .ok lo =>
            -- Only insert if recent enough
            if lo < st.maxItems then
              match evictLoop st.maxItems (ids₁.insertIdx lo aid) (storeSet st.store aid entry) with
              | .error e => .error e
              | .ok (ids₃, s₃) => .ok (true, { st with itemsKey := some ids₃, store := s₃ })
            else .ok (true, st)

/-- `Cache.last_update` (`src/bccc/ui/cache.py`, lines 138-146):
`self._db["items"][0]` raises `IndexError` when the list is empty. -/
def Cache.lastUpdate (st : CacheState) : Except PyErr Nat :=
  match st.itemsKey with
  | some ids =>
    match ids.head? with
    | none => .error .indexError
    | some id0 =>
      match storeGet st.store id0 with
      | none => .error .keyError
      | some e => .ok e.ts
  | none => .ok Cache.neverTs

/-- `Cache.del_item(id)` (`src/bccc/ui/cache.py`, lines 199-213): both
removals are guarded by membership tests, so it is total. -/
def Cache.delItem (st : CacheState) (id : String) : CacheState :=
  let itemsKey' :=
    match st.itemsKey with
    | some ids => if id ∈ ids then some (ids.erase id) else some ids
    | none => none
  let store' :=
    if (storeGet st.store id).isSome then st.store.filter (fun p => p.1 != id)
    else st.store
  { st with itemsKey := itemsKey', store := store' }

/-- Running a sequence of `add_item` calls (an exception would escape before
mutating the db, leaving the state unchanged; under the invariant no
exception occurs). -/
def runAddItems (st : CacheState) : List Atom → CacheState
  | [] => st
  | a :: rest =>
    match Cache.addItem st a with
    | .ok (_, st') => runAddItems st' rest
    | .error _ => runAddItems st rest

/-- The cache-state invariant: cached ids are unique, each has a stored
entry, the list is ordered newest-first by entry timestamp, and the count
is within `max_items`. -/
def cacheInv (st : CacheState) : Prop :=
  st.items.Nodup ∧
  (∀ id ∈ st.items, (storeGet st.store id).isSome) ∧
  st.items.Pairwise (fun x y => tsD st y ≤ tsD st x) ∧
  st.items.length ≤ st.maxItems

theorem storeGet_storeSet_self (s : List (String × CacheEntry)) (id : String) (e : CacheEntry) :
    storeGet (storeSet s id e) id = some e := by
  induction s with
  | nil => simp [storeSet, storeGet]
  | cons p rest ih =>
    by_cases hp : p.1 = id
    · simp [storeSet, storeGet, hp]
    · simp [storeSet, storeGet, hp, ih]

theorem storeGet_storeSet_ne (s : List (String × CacheEntry)) (id x : String) (e : CacheEntry)
    (hne : x ≠ id) : storeGet (storeSet s id e) x = storeGet s x := by
  induction s with
  | nil => simp [storeSet, storeGet, Ne.symm hne]
  | cons p rest ih =>
    by_cases hp : p.1 = id
    · simp [storeSet, storeGet, hp, Ne.symm hne, ih]
    · by_cases hx : p.1 = x
      · simp [storeSet, storeGet, hp, hx, hne, Ne.symm hne]
      · simp [storeSet, storeGet, hp, hx, ih]

theorem storeGet_filter_ne (s : List (String × CacheEntry)) (id x : String) (hne : x ≠ id) :
    storeGet (s.filter (fun p => p.1 != id)) x = storeGet s x := by
  induction s with
  | nil => rfl
  | cons p rest ih =>
    by_cases hp : p.1 = id
    · have hpx : ¬ p.1 = x := by rw [hp]; exact Ne.symm hne
      simp [List.filter_cons, storeGet, hp, hpx, hne, Ne.symm hne, ih]
    · by_cases hx : p.1 = x
      · simp [List.filter_cons, storeGet, hp, hx, hne, Ne.symm hne]
      · simp [List.filter_cons, storeGet, hp, hx, ih]

theorem storeDel_ok (s : List (String × CacheEntry)) (id : String)
    (h : (storeGet s id).isSome) :
    storeDel s id = .ok (s.filter (fun p => p.1 != id)) := by
  simp only [storeDel, if_pos h]

/-- The eviction loop keeps exactly the first `maxItems` ids and leaves
their entries untouched. -/
theorem evictLoop_ok (maxItems : Nat) (ids : List String) (s : List (String × CacheEntry))
    (hnodup : ids.Nodup) (hpres : ∀ id ∈ ids, (storeGet s id).isSome) :
    ∃ s', evictLoop maxItems ids s = .ok (ids.take maxItems, s') ∧
      ∀ x ∈ ids.take maxItems, storeGet s' x = storeGet s x := by
  by_cases h : maxItems < ids.length
  · have hne : ids ≠ [] := by
      intro he
      rw [he] at h
      simp at h
    have hlast : ids.getLast? = some (ids.getLast hne) :=
      List.getLast?_eq_getLast_of_ne_nil hne
    set last := ids.getLast hne with hlastdef
    have hlastmem : last ∈ ids := List.getLast_mem hne
    have hdel := storeDel_ok s last (hpres last hlastmem)
    have hsplit : ids.dropLast ++ [last] = ids := List.dropLast_append_getLast hne
    have hlastnotmem : last ∉ ids.dropLast := by
      intro hmem
      have hnd : (ids.dropLast ++ [last]).Nodup := by rw [hsplit]; exact hnodup
      exact (List.nodup_append.mp hnd).2.2 hmem (by simp)
    have hpres' : ∀ id ∈ ids.dropLast,
        (storeGet (s.filter (fun p => p.1 != last)) id).isSome := by
      intro id hmem
      have hne' : id ≠ last := fun he => hlastnotmem (he ▸ hmem)
      rw [storeGet_filter_ne s last id hne']
      exact hpres id (List.mem_of_mem_dropLast hmem)
    obtain ⟨s', hs', hkeep⟩ := evictLoop_ok maxItems ids.dropLast
      (s.filter (fun p => p.1 != last)) (hnodup.sublist (List.dropLast_sublist ids)) hpres'
    have htake : ids.dropLast.take maxItems = ids.take maxItems := by
      rw [List.dropLast_eq_take, List.take_take]
      congr 1
      omega
    refine ⟨s', ?_, ?_⟩
    · unfold evictLoop
      rw [dif_pos h, hlast]
      simp only [hdel, hs', htake]
    · intro x hx
      have hx' : x ∈ ids.dropLast.take maxItems := by rw [htake]; exact hx
      have hxlast : x ≠ last := by
        intro he
        exact hlastnotmem (he ▸ List.mem_of_mem_take hx')
      rw [hkeep x hx', storeGet_filter_ne s last x hxlast]
  · refine ⟨s, ?_, ?_⟩
    · unfold evictLoop
      rw [dif_neg h, List.take_of_length_le (by omega)]
    · intro x _
      rfl
termination_by ids.length
decreasing_by
  simp only [List.length_dropLast]
  omega

theorem getD_eq_getElem (l : List String) (i : Nat) (h : i < l.length) :
    l.getD i "" = l[i] := by
  rw [List.getD_eq_getElem?_getD, List.getElem?_eq_getElem h]
  rfl

theorem tsOf_eq_of_storeGet {s : List (String × CacheEntry)} {id : String} {e : CacheEntry}
    (h : storeGet s id = some e) : tsOf s id = e.ts := by
  simp [tsOf, h]

/-- The comparison of `add_item`'s inlined binary search, in pure form:
`entry[0] >= mid_entry[0]` decides `hi = mid`, i.e. the search descends left
exactly when the probed entry is strictly newer than the incoming one. -/
def addItemCond (store : List (String × CacheEntry)) (entry : CacheEntry)
    (ids₁ : List String) (mid : Nat) : Bool :=
  decide (entry.ts < tsOf store (ids₁.getD mid ""))

theorem addItemCond_eq (store : List (String × CacheEntry)) (entry : CacheEntry)
    (ids₁ : List String) (i : Nat) (hi : i < ids₁.length) :
    addItemCond store entry ids₁ i = decide (entry.ts < tsOf store ids₁[i]) := by
  rw [addItemCond, getD_eq_getElem ids₁ i hi]

/-- The insertion portion of `add_item` on a sorted, duplicate-free id list
not containing the incoming id: the binary search finds a position that
keeps the list sorted, the store gains the entry, and the eviction loop
keeps exactly the first `max_items` ids — so everything evicted is at least
as old as everything kept. -/
theorem cache_insert_sorted (maxItems : Nat) (store : List (String × CacheEntry))
    (ids₁ : List String) (aid : String) (entry : CacheEntry)
    (hn : ids₁.Nodup)
    (hpres : ∀ id ∈ ids₁, (storeGet store id).isSome)
    (hsort : ids₁.Pairwise (fun x y => tsOf store y ≤ tsOf store x))
    (hnotmem : aid ∉ ids₁)
    (lo : Nat)
    (hlo : lo = bisectAux (addItemCond store entry ids₁) 0 ids₁.length)
    (ids₂ : List String) (hids₂ : ids₂ = ids₁.insertIdx lo aid) :
    ∃ s₃, evictLoop maxItems ids₂ (storeSet store aid entry) = .ok (ids₂.take maxItems, s₃) ∧
      (ids₂.take maxItems).Nodup ∧
      (∀ id ∈ ids₂.take maxItems, (storeGet s₃ id).isSome) ∧
      (ids₂.take maxItems).Pairwise (fun x y => tsOf s₃ y ≤ tsOf s₃ x) ∧
      (lo < maxItems → aid ∈ ids₂.take maxItems ∧ storeGet s₃ aid = some entry) ∧
      (∀ y ∈ ids₁, y ∉ ids₂.take maxItems → ∀ x ∈ ids₂.take maxItems,
        tsOf store y ≤ tsOf s₃ x) := by
  have hpw := (List.pairwise_iff_getElem
    (R := fun x y : String => tsOf store y ≤ tsOf store x)).mp hsort
  -- the bisect insertion point and its partition properties
  have hloLe : lo ≤ ids₁.length := by
    rw [hlo]
    exact bisectAux_le _ 0 _ (Nat.zero_le _)
  have hcondeq : ∀ i (hi : i < ids₁.length),
      addItemCond store entry ids₁ i = decide (entry.ts < tsOf store ids₁[i]) :=
    addItemCond_eq store entry ids₁
  have hmono : ∀ i j, 0 ≤ i → i ≤ j → j < ids₁.length →
      addItemCond store entry ids₁ j = true →
      addItemCond store entry ids₁ i = true := by
    intro i j _ hij hj hc
    have hi : i < ids₁.length := Nat.lt_of_le_of_lt hij hj
    rw [hcondeq j hj] at hc
    rw [hcondeq i hi]
    have hji : tsOf store ids₁[j] ≤ tsOf store ids₁[i] := by
      rcases Nat.eq_or_lt_of_le hij with rfl | hlt
      · exact Nat.le_refl _
      · exact hpw i j hi hj hlt
    simp only [decide_eq_true_eq] at hc ⊢
    omega
  have hspec := bisectAux_spec _ 0 ids₁.length hmono
  have h1 : ∀ i (hi : i < ids₁.length), i < lo → entry.ts < tsOf store ids₁[i] := by
    intro i hi hilt
    have := hspec.1 i (Nat.zero_le _) (hlo ▸ hilt)
    rw [hcondeq i hi] at this
    simpa using this
  have h2 : ∀ i (hi : i < ids₁.length), lo ≤ i → tsOf store ids₁[i] ≤ entry.ts := by
    intro i hi hile
    have := hspec.2 i (hlo ▸ hile) hi
    rw [hcondeq i hi] at this
    simp only [decide_eq_false_iff_not] at this
    omega
  -- ids₂ facts
  have hlen₂ : ids₂.length = ids₁.length + 1 := by
    rw [hids₂, List.length_insertIdx]
    simp [hloLe]
  have hmem₂ : ∀ x ∈ ids₂, x = aid ∨ x ∈ ids₁ := by
    intro x hx
    exact (List.mem_insertIdx hloLe).mp (hids₂ ▸ hx)
  have haidmem₂ : aid ∈ ids₂ := by
    rw [hids₂]
    have := List.perm_insertIdx aid ids₁ hloLe
    exact this.mem_iff.mpr (List.mem_cons_self _ _)
  have hn₂ : ids₂.Nodup := by
    rw [hids₂, (List.perm_insertIdx aid ids₁ hloLe).nodup_iff]
    exact List.nodup_cons.mpr ⟨hnotmem, hn⟩
  have hpres₂ : ∀ x ∈ ids₂, (storeGet (storeSet store aid entry) x).isSome := by
    intro x hx
    rcases hmem₂ x hx with rfl | hx₁
    · rw [storeGet_storeSet_self]
      rfl
    · have hne : x ≠ aid := fun he => hnotmem (he ▸ hx₁)
      rw [storeGet_storeSet_ne store aid x entry hne]
      exact hpres x hx₁
  -- sortedness of ids₂ in the updated store
  have htsOf₂ : ∀ x ∈ ids₁, tsOf (storeSet store aid entry) x = tsOf store x := by
    intro x hx₁
    have hne : x ≠ aid := fun he => hnotmem (he ▸ hx₁)
    simp only [tsOf]
    rw [storeGet_storeSet_ne store aid x entry hne]
  have htsaid : tsOf (storeSet store aid entry) aid = entry.ts := by
    simp [tsOf, storeGet_storeSet_self]
  have hsort₂ : ids₂.Pairwise
      (fun x y => tsOf (storeSet store aid entry) y ≤ tsOf (storeSet store aid entry) x) := by
    rw [hids₂]
    refine pairwise_insertIdx_key (tsOf (storeSet store aid entry)) hloLe
      (hsort.imp_of_mem ?_) ?_ ?_
    · intro x y hx hy hr
      rw [htsOf₂ x hx, htsOf₂ y hy]
      exact hr
    · intro i hi hilt
      rw [htsaid, List.get_eq_getElem, htsOf₂ _ (List.getElem_mem _)]
      exact h1 i hi hilt
    · intro i hi hile
      rw [htsaid, List.get_eq_getElem, htsOf₂ _ (List.getElem_mem _)]
      exact h2 i hi hile
  -- run the eviction loop
  obtain ⟨s₃, hrun, hkeep⟩ := evictLoop_ok maxItems ids₂ (storeSet store aid entry) hn₂ hpres₂
  have htsOf₃ : ∀ x ∈ ids₂.take maxItems,
      tsOf s₃ x = tsOf (storeSet store aid entry) x := by
    intro x hx
    simp only [tsOf]
    rw [hkeep x hx]
  refine ⟨s₃, hrun, hn₂.sublist (List.take_sublist _ _), ?_, ?_, ?_, ?_⟩
  · intro x hx
    rw [hkeep x hx]
    exact hpres₂ x (List.mem_of_mem_take hx)
  · refine ((hsort₂.sublist (List.take_sublist _ _)).imp_of_mem ?_)
    intro x y hx hy hr
    rw [htsOf₃ x hx, htsOf₃ y hy]
    exact hr
  · intro hloMax
    have hlolt : lo < ids₂.length := by omega
    have hlen₂' : (ids₁.insertIdx lo aid).length = ids₁.length + 1 := by
      rw [← hids₂]
      exact hlen₂
    have hlobound : lo < (ids₁.insertIdx lo aid).length := by
      rw [hlen₂']
      omega
    have h' : (ids₁.insertIdx lo aid)[lo] = aid :=
      List.getElem_insertIdx_self ids₁ aid lo hloLe
    have hgetq : ids₂[lo]? = some aid := by
      rw [hids₂, List.getElem?_eq_getElem (by rw [hlen₂']; omega), h']
    have hgetlo : ids₂[lo] = aid := by
      have h3 := List.getElem?_eq_getElem hlolt
      rw [hgetq] at h3
      exact (Option.some_inj.mp h3).symm
    have hlt : lo < (ids₂.take maxItems).length := by
      rw [List.length_take]
      omega
    have haidtake : aid ∈ ids₂.take maxItems := by
      have htk : (ids₂.take maxItems)[lo] = ids₂[lo] := List.getElem_take ids₂
      have := List.getElem_mem hlt
      rw [htk, hgetlo] at this
      exact this
    refine ⟨haidtake, ?_⟩
    rw [hkeep aid haidtake, storeGet_storeSet_self]
  · intro y hy₁ hynot x hx
    have hy₂ : y ∈ ids₂ := by
      rw [hids₂]
      exact (List.perm_insertIdx aid ids₁ hloLe).mem_iff.mpr (List.mem_cons_of_mem _ hy₁)
    have hydrop : y ∈ ids₂.drop maxItems := by
      have := List.take_append_drop maxItems ids₂
      rw [← this] at hy₂
      rcases List.mem_append.mp hy₂ with h | h
      · exact absurd h hynot
      · exact h
    have hsplit := List.take_append_drop maxItems ids₂
    have hpairs := hsort₂
    rw [← hsplit] at hpairs
    have := (List.pairwise_append.mp hpairs).2.2 x hx y hydrop
    have hyne : y ≠ aid := fun he => hnotmem (he ▸ hy₁)
    rw [htsOf₂ y hy₁] at this
    rw [htsOf₃ x hx]
    exact this

/-- The post-state of `add_item` when the cache holds no items yet. -/
def freshCacheState (st : CacheState) (atom : Atom) : CacheState :=
  { st with
    itemsKey := some [atom.id]
    store := storeSet st.store atom.id (atomToEntry atom) }

/-- Post-state facts shared by both "cache empty" paths of `add_item`
(absent `items` key, or an empty id list). -/
theorem addItem_empty_post (st : CacheState) (atom : Atom) (hmax : 1 ≤ st.maxItems)
    (hitems : st.items = []) :
    (freshCacheState st atom).maxItems = st.maxItems ∧
    cacheInv (freshCacheState st atom) ∧
    (freshCacheState st atom).items.length ≤ st.maxItems ∧
    (∀ y ∈ st.items, y ∉ (freshCacheState st atom).items →
      ∀ x ∈ (freshCacheState st atom).items, tsD st y ≤ tsD (freshCacheState st atom) x) ∧
    (st.items.length = st.maxItems → atom.id ∉ st.items →
      (atomToEntry atom).ts < tsD st (st.items.getLast?.getD "") →
        freshCacheState st atom = st) ∧
    (atom.id ∈ st.items → storeGet st.store atom.id ≠ some (atomToEntry atom) →
      atom.id ∈ (freshCacheState st atom).items ∧
        storeGet (freshCacheState st atom).store atom.id = some (atomToEntry atom)) ∧
    (true = false ↔ atom.id ∈ st.items ∧
      storeGet st.store atom.id = some (atomToEntry atom)) := by
  have hitems' : (freshCacheState st atom).items = [atom.id] := by
    simp [CacheState.items, freshCacheState]
  refine ⟨rfl, ⟨?_, ?_, ?_, ?_⟩, ?_, ?_, ?_, ?_, ?_⟩
  · rw [hitems']
    simp
  · rw [hitems']
    intro i hi
    rw [List.mem_singleton] at hi
    subst hi
    show (storeGet (freshCacheState st atom).store atom.id).isSome = true
    simp only [freshCacheState]
    rw [storeGet_storeSet_self]
    rfl
  · rw [hitems']
    simp
  · rw [hitems']
    simpa using hmax
  · rw [hitems']
    simpa using hmax
  · intro y hy
    rw [hitems] at hy
    simp at hy
  · intro hl
    rw [hitems] at hl
    simp only [List.length_nil] at hl
    omega
  · intro hm
    rw [hitems] at hm
    simp at hm
  · simp [hitems]

/-- Monotonicity of the binary-search comparison along a newest-first id
list: once the probed entry is newer than the incoming one, so are all
entries before it. -/
theorem addItemCond_mono (store : List (String × CacheEntry)) (entry : CacheEntry)
    (ids₁ : List String) (hsort : ids₁.Pairwise (fun x y => tsOf store y ≤ tsOf store x)) :
    ∀ i j, 0 ≤ i → i ≤ j → j < ids₁.length →
      addItemCond store entry ids₁ j = true → addItemCond store entry ids₁ i = true := by
  have hpw := (List.pairwise_iff_getElem
    (R := fun x y : String => tsOf store y ≤ tsOf store x)).mp hsort
  intro i j _ hij hj hc
  have hi : i < ids₁.length := Nat.lt_of_le_of_lt hij hj
  rw [addItemCond_eq store entry ids₁ j hj] at hc
  rw [addItemCond_eq store entry ids₁ i hi]
  have hji : tsOf store ids₁[j] ≤ tsOf store ids₁[i] := by
    rcases Nat.eq_or_lt_of_le hij with rfl | hlt
    · exact Nat.le_refl _
    · exact hpw i j hi hj hlt
  simp only [decide_eq_true_eq] at hc ⊢
  omega

/-- Full characterization of one `add_item` call from a state satisfying the
invariant: no exception escapes, the invariant and the `max_items` bound are
preserved, evicted ids are at least as old as every kept id, a too-old fresh
item on a full cache leaves the state unchanged, a correction of a cached id
is always cached, and the call returns `False` exactly when an identical
entry was already cached. -/
theorem addItem_spec (st : CacheState) (atom : Atom)
    (hmax : 1 ≤ st.maxItems) (hinv : cacheInv st) :
    ∃ r st', Cache.addItem st atom = .ok (r, st') ∧
      st'.maxItems = st.maxItems ∧
      cacheInv st' ∧
      st'.items.length ≤ st.maxItems ∧
      (∀ y ∈ st.items, y ∉ st'.items → ∀ x ∈ st'.items, tsD st y ≤ tsD st' x) ∧
      (st.items.length = st.maxItems → atom.id ∉ st.items →
        (atomToEntry atom).ts < tsD st (st.items.getLast?.getD "") → st' = st) ∧
      (atom.id ∈ st.items → storeGet st.store atom.id ≠ some (atomToEntry atom) →
        atom.id ∈ st'.items ∧ storeGet st'.store atom.id = some (atomToEntry atom)) ∧
      (r = false ↔ atom.id ∈ st.items ∧ storeGet st.store atom.id = some (atomToEntry atom)) := by
  obtain ⟨hnodup, hpres, hsort, hlen⟩ := hinv
  cases hik : st.itemsKey with
  | none =>
    have hitems : st.items = [] := by simp [CacheState.items, hik]
    exact ⟨true, _, by simp [Cache.addItem, hik, freshCacheState],
      addItem_empty_post st atom hmax hitems⟩
  | some ids =>
    have hitems : st.items = ids := by simp [CacheState.items, hik]
    rw [hitems] at hnodup hpres hsort hlen
    by_cases hemp : ids.length = 0
    · have hids0 : ids = [] := List.eq_nil_of_length_eq_zero hemp
      have hitems' : st.items = [] := by rw [hitems, hids0]
      refine ⟨true, _, ?_, addItem_empty_post st atom hmax hitems'⟩
      simp [Cache.addItem, hik, hemp, freshCacheState]
    · by_cases hmem : atom.id ∈ ids
      · -- the id is already cached
        obtain ⟨cached, hget⟩ := Option.isSome_iff_exists.mp (hpres atom.id hmem)
        by_cases heqe : cached = atomToEntry atom
        · -- identical entry: no-op returning False
          refine ⟨false, st, ?_, rfl, ⟨by rw [hitems]; exact hnodup,
            by rw [hitems]; exact hpres, by rw [hitems]; exact hsort,
            by rw [hitems]; exact hlen⟩, by rw [hitems]; exact hlen, ?_, ?_, ?_, ?_⟩
          · simp [Cache.addItem, hik, hemp, hmem, hget, heqe]
          · intro y hy hyn
            exact absurd hy hyn
          · intro _ _ _
            rfl
          · intro _ hne
            exact absurd (heqe ▸ hget) hne
          · simp only [hitems]
            constructor
            · intro _
              exact ⟨hmem, heqe ▸ hget⟩
            · intro _
              trivial
        · -- a changed entry for a cached id: replace it
          have hne₁ : atom.id ∉ ids.erase atom.id := by
            intro hc
            exact absurd ((hnodup.mem_erase_iff).mp hc).1 (by simp)
          have hsub := List.erase_sublist atom.id ids
          have hlen₁ : (ids.erase atom.id).length = ids.length - 1 :=
            List.length_erase_of_mem hmem
          have hnotfull : ¬ (st.maxItems ≤ (ids.erase atom.id).length) := by omega
          obtain ⟨s₃, hrun, hnd₃, hpres₃, hsort₃, haidK, hevict⟩ :=
            cache_insert_sorted st.maxItems st.store (ids.erase atom.id) atom.id
              (atomToEntry atom) (hnodup.erase atom.id)
              (fun id hid => hpres id (hsub.subset hid))
              (hsort.sublist hsub) hne₁ _ rfl _ rfl
          set lo := bisectAux
            (addItemCond st.store (atomToEntry atom) (ids.erase atom.id)) 0
            (ids.erase atom.id).length with hlodef
          have hloLe : lo ≤ (ids.erase atom.id).length :=
            bisectAux_le _ 0 _ (Nat.zero_le _)
          have hlolt : lo < st.maxItems := by omega
          refine ⟨true,
            { st with
              itemsKey := some (((ids.erase atom.id).insertIdx lo atom.id).take st.maxItems)
              store := s₃ }, ?_, rfl, ?_, ?_, ?_, ?_, ?_, ?_⟩
          · -- the call evaluates to exactly this state
            have hbis : bisectAuxE (fun mid =>
                match storeGet st.store ((ids.erase atom.id).getD mid "") with
                | none => .error .keyError
                | some midEntry => .ok ((atomToEntry atom).ts < midEntry.ts)) 0
                (ids.erase atom.id).length = .ok lo := by
              rw [hlodef]
              refine bisectAuxE_eq_ok _ _ 0 _ ?_
              intro i _ hi
              obtain ⟨e, he⟩ := Option.isSome_iff_exists.mp
                (hpres _ (hsub.subset (List.getElem_mem hi)))
              rw [getD_eq_getElem _ i hi, he, addItemCond_eq _ _ _ i hi,
                tsOf_eq_of_storeGet he]
            simp only [Cache.addItem, hik, if_neg hemp, if_pos hmem, hget, if_neg heqe,
              if_neg hnotfull, hbis, if_pos hlolt, hrun]
          · -- the invariant holds in the new state
            refine ⟨?_, ?_, ?_, ?_⟩ <;> simp only [CacheState.items, Option.getD_some]
            · exact hnd₃
            · exact hpres₃
            · exact hsort₃
            · rw [List.length_take]
              omega
          · simp only [CacheState.items, Option.getD_some]
            rw [List.length_take]
            omega
          · -- evicted ids are at least as old as kept ids
            intro y hy hyn x hx
            simp only [CacheState.items, Option.getD_some] at hyn hx
            rw [hitems] at hy
            by_cases hya : y = atom.id
            · subst hya
              exact absurd (haidK hlolt).1 hyn
            · exact hevict y ((hnodup.mem_erase_iff).mpr ⟨hya, hy⟩) hyn x hx
          · -- the "too old" rejection hypothesis contradicts membership
            intro _ hno _
            exact absurd (hitems ▸ hmem) hno
          · -- the correction is cached
            intro _ _
            simp only [CacheState.items, Option.getD_some]
            exact haidK hlolt
          · constructor
            · intro h
              simp at h
            · rintro ⟨_, hsg⟩
              rw [hget] at hsg
              exact absurd (Option.some_inj.mp hsg) heqe
      · -- a fresh id
        have hne : ids ≠ [] := fun h => hemp (by rw [h]; rfl)
        have hlast : ids.getLast? = some (ids.getLast hne) :=
          List.getLast?_eq_getLast_of_ne_nil hne
        have hlastmem : ids.getLast hne ∈ ids := List.getLast_mem hne
        obtain ⟨oldest, hgetlast⟩ :=
          Option.isSome_iff_exists.mp (hpres (ids.getLast hne) hlastmem)
        obtain ⟨s₃, hrun, hnd₃, hpres₃, hsort₃, haidK, hevict⟩ :=
          cache_insert_sorted st.maxItems st.store ids atom.id (atomToEntry atom)
            hnodup hpres hsort hmem _ rfl _ rfl
        set lo := bisectAux (addItemCond st.store (atomToEntry atom) ids) 0 ids.length
          with hlodef
        have hloLe : lo ≤ ids.length := bisectAux_le _ 0 _ (Nat.zero_le _)
        have hbis : bisectAuxE (fun mid =>
            match storeGet st.store (ids.getD mid "") with
            | none => .error .keyError
            | some midEntry => .ok ((atomToEntry atom).ts < midEntry.ts)) 0
            ids.length = .ok lo := by
          rw [hlodef]
          refine bisectAuxE_eq_ok _ _ 0 _ ?_
          intro i _ hi
          obtain ⟨e, he⟩ := Option.isSome_iff_exists.mp (hpres _ (List.getElem_mem hi))
          rw [getD_eq_getElem _ i hi, he, addItemCond_eq _ _ _ i hi,
            tsOf_eq_of_storeGet he]
        by_cases hfull : st.maxItems ≤ ids.length
        · have hlenmax : ids.length = st.maxItems := by omega
          by_cases hold : (atomToEntry atom).ts < oldest.ts
          · -- too old for a full cache: state unchanged, still returns True
            refine ⟨true, st, ?_, rfl, ⟨by rw [hitems]; exact hnodup,
              by rw [hitems]; exact hpres, by rw [hitems]; exact hsort,
              by rw [hitems]; exact hlen⟩, by rw [hitems]; exact hlen, ?_, ?_, ?_, ?_⟩
            · simp only [Cache.addItem, hik, if_neg hemp, if_neg hmem, if_pos hfull,
                hlast, hgetlast, decide_eq_true hold]
            · intro y hy hyn
              exact absurd hy hyn
            · intro _ _ _
              rfl
            · intro hmm _
              exact absurd (hitems ▸ hmm) hmem
            · constructor
              · intro h
                simp at h
              · rintro ⟨hmm, _⟩
                exact absurd (hitems ▸ hmm) hmem
          · -- full cache, but recent enough: insert and evict the tail
            have hlolt : lo < st.maxItems := by
              by_contra hno
              have hloeq : lo = ids.length := by omega
              have hspec := bisectAux_spec (addItemCond st.store (atomToEntry atom) ids)
                0 ids.length
                (addItemCond_mono st.store (atomToEntry atom) ids hsort)
              have hlpos : 0 < ids.length := by omega
              have hcl := hspec.1 (ids.length - 1) (Nat.zero_le _) (by omega)
              rw [addItemCond_eq _ _ _ _ (by omega)] at hcl
              have hlastb : ids.length - 1 < ids.length := by omega
              have hlastel : ids[ids.length - 1] = ids.getLast hne := by
                rw [List.getLast_eq_getElem]
              rw [hlastel, tsOf_eq_of_storeGet hgetlast] at hcl
              simp only [decide_eq_true_eq] at hcl
              exact hold hcl
            refine ⟨true,
              { st with
                itemsKey := some ((ids.insertIdx lo atom.id).take st.maxItems)
                store := s₃ }, ?_, rfl, ?_, ?_, ?_, ?_, ?_, ?_⟩
            · simp only [Cache.addItem, hik, if_neg hemp, if_neg hmem, if_pos hfull,
                hlast, hgetlast, decide_eq_false hold, hbis, if_pos hlolt, hrun]
            · refine ⟨?_, ?_, ?_, ?_⟩ <;> simp only [CacheState.items, Option.getD_some]
              · exact hnd₃
              · exact hpres₃
              · exact hsort₃
              · rw [List.length_take]
                omega
            · simp only [CacheState.items, Option.getD_some]
              rw [List.length_take]
              omega
            · intro y hy hyn x hx
              simp only [CacheState.items, Option.getD_some] at hyn hx
              rw [hitems] at hy
              exact hevict y hy hyn x hx
            · -- the rejection hypothesis contradicts "recent enough"
              intro _ _ hltc
              rw [hitems, hlast] at hltc
              simp only [Option.getD_some] at hltc
              rw [show tsD st (ids.getLast hne) = oldest.ts from
                tsOf_eq_of_storeGet hgetlast] at hltc
              exact absurd hltc hold
            · intro hmm _
              exact absurd (hitems ▸ hmm) hmem
            · constructor
              · intro h
                simp at h
              · rintro ⟨hmm, _⟩
                exact absurd (hitems ▸ hmm) hmem
        · -- cache not full: plain sorted insertion
          have hlolt : lo < st.maxItems := by omega
          refine ⟨true,
            { st with
              itemsKey := some ((ids.insertIdx lo atom.id).take st.maxItems)
              store := s₃ }, ?_, rfl, ?_, ?_, ?_, ?_, ?_, ?_⟩
          · simp only [Cache.addItem, hik, if_neg hemp, if_neg hmem, if_neg hfull,
              hbis, if_pos hlolt, hrun]
          · refine ⟨?_, ?_, ?_, ?_⟩ <;> simp only [CacheState.items, Option.getD_some]
            · exact hnd₃
            · exact hpres₃
            · exact hsort₃
            · rw [List.length_take]
              omega
          · simp only [CacheState.items, Option.getD_some]
            rw [List.length_take]
            omega
          · intro y hy hyn x hx
            simp only [CacheState.items, Option.getD_some] at hyn hx
            rw [hitems] at hy
            exact hevict y hy hyn x hx
          · intro hlc _ _
            rw [hitems] at hlc
            exfalso
            omega
          · intro hmm _
            exact absurd (hitems ▸ hmm) hmem
          · constructor
            · intro h
              simp at h
            · rintro ⟨hmm, _⟩
              exact absurd (hitems ▸ hmm) hmem

theorem cacheInv_empty (maxItems : Nat) : cacheInv (CacheState.emptyCache maxItems) := by
  refine ⟨?_, ?_, ?_, ?_⟩ <;> simp [CacheState.emptyCache, CacheState.items]

/-- The cache state reached from a fresh store by a sequence of `add_item`
calls. -/
def cacheAfter (maxItems : Nat) (ops : List Atom) : CacheState :=
  runAddItems (CacheState.emptyCache maxItems) ops

theorem cacheInv_runAddItems (st : CacheState) (ops : List Atom)
    (hmax : 1 ≤ st.maxItems) (hinv : cacheInv st) :
    cacheInv (runAddItems st ops) ∧ (runAddItems st ops).maxItems = st.maxItems := by
  induction ops generalizing st with
  | nil => exact ⟨hinv, rfl⟩
  | cons a rest ih =>
    obtain ⟨r, st', heq, hm, hinv', _⟩ := addItem_spec st a hmax hinv
    simp only [runAddItems, heq]
    have := ih st' (hm ▸ hmax) hinv'
    exact ⟨this.1, by rw [this.2, hm]⟩

theorem cacheAfter_inv (maxItems : Nat) (ops : List Atom) (hmax : 1 ≤ maxItems) :
    cacheInv (cacheAfter maxItems ops) ∧ (cacheAfter maxItems ops).maxItems = maxItems :=
  cacheInv_runAddItems (CacheState.emptyCache maxItems) ops hmax (cacheInv_empty maxItems)

/-- C4. For every sequence of `add_item` calls from a fresh cache, the
cached-item count never exceeds `max_items`; on the next call, everything
evicted is at least as old (by cache-ordering timestamp) as everything kept,
an incoming fresh item older than the oldest kept item of a full cache
leaves the cache unchanged, and an item correcting a cached entry for the
same id is always (re)cached. -/
theorem feedCache_bound_eviction_rejection (maxItems : Nat) (hmax : 1 ≤ maxItems)
    (ops : List Atom) :
    (cacheAfter maxItems ops).items.length ≤ maxItems ∧
    ∀ atom, ∃ r st',
      Cache.addItem (cacheAfter maxItems ops) atom = .ok (r, st') ∧
      st'.items.length ≤ maxItems ∧
      (∀ y ∈ (cacheAfter maxItems ops).items, y ∉ st'.items →
        ∀ x ∈ st'.items, tsD (cacheAfter maxItems ops) y ≤ tsD st' x) ∧
      ((cacheAfter maxItems ops).items.length = maxItems →
        atom.id ∉ (cacheAfter maxItems ops).items →
        (atomToEntry atom).ts < tsD (cacheAfter maxItems ops)
          ((cacheAfter maxItems ops).items.getLast?.getD "") →
        st' = cacheAfter maxItems ops) ∧
      (atom.id ∈ (cacheAfter maxItems ops).items →
        storeGet (cacheAfter maxItems ops).store atom.id ≠ some (atomToEntry atom) →
        atom.id ∈ st'.items ∧ storeGet st'.store atom.id = some (atomToEntry atom)) := by
  obtain ⟨hinv, hm⟩ := cacheAfter_inv maxItems ops hmax
  have hmax' : 1 ≤ (cacheAfter maxItems ops).maxItems := by
    rw [hm]
    exact hmax
  refine ⟨le_trans hinv.2.2.2 (le_of_eq hm), ?_⟩
  intro atom
  obtain ⟨r, st', heq, _, _, hlen', hB, hC, hD, _⟩ :=
    addItem_spec (cacheAfter maxItems ops) atom hmax' hinv
  refine ⟨r, st', heq, le_trans hlen' (le_of_eq hm), hB, ?_, hD⟩
  rw [hm] at hC
  exact hC

/-- Witness atom published at time 3. -/
def wAtomT3 : Atom :=
  { id := "t3", author := "a", content := "x", objectType := "note",
    inReplyTo := none, published := 3, updated := none, tombstone := false }

/-- Witness atom published at time 2. -/
def wAtomT2 : Atom :=
  { id := "t2", author := "a", content := "x", objectType := "note",
    inReplyTo := none, published := 2, updated := none, tombstone := false }

/-- Witness atom published at time 1. -/
def wAtomT1 : Atom :=
  { id := "t1", author := "a", content := "x", objectType := "note",
    inReplyTo := none, published := 1, updated := none, tombstone := false }

/-- The spec's §8 cache scenario: `max_items = 2`, items at T3, T2, T1. -/
def wOps : List Atom := [wAtomT3, wAtomT2, wAtomT1]

/-- Witness for C4's theorem at the spec's own scenario. -/
theorem feedCache_bound_eviction_rejection_witness :
    (1 ≤ 2) ∧
    ((cacheAfter 2 wOps).items.length ≤ 2 ∧
      ∀ atom, ∃ r st',
        Cache.addItem (cacheAfter 2 wOps) atom = .ok (r, st') ∧
        st'.items.length ≤ 2 ∧
        (∀ y ∈ (cacheAfter 2 wOps).items, y ∉ st'.items →
          ∀ x ∈ st'.items, tsD (cacheAfter 2 wOps) y ≤ tsD st' x) ∧
        ((cacheAfter 2 wOps).items.length = 2 →
          atom.id ∉ (cacheAfter 2 wOps).items →
          (atomToEntry atom).ts < tsD (cacheAfter 2 wOps)
            ((cacheAfter 2 wOps).items.getLast?.getD "") →
          st' = cacheAfter 2 wOps) ∧
        (atom.id ∈ (cacheAfter 2 wOps).items →
          storeGet (cacheAfter 2 wOps).store atom.id ≠ some (atomToEntry atom) →
          atom.id ∈ st'.items ∧ storeGet st'.store atom.id = some (atomToEntry atom))) :=
  ⟨by decide, feedCache_bound_eviction_rejection 2 (by decide) wOps⟩

/-- C5 (amended). On every reachable cache state, `add_item` returns
`False` exactly when an entry identical to the incoming one is already
cached under the same id; in every other case it returns `True` — including
when a too-old item is rejected and ends up not cached. -/
theorem addItem_false_iff_identical (maxItems : Nat) (hmax : 1 ≤ maxItems)
    (ops : List Atom) (atom : Atom) :
    ∃ r st', Cache.addItem (cacheAfter maxItems ops) atom = .ok (r, st') ∧
      (r = false ↔ atom.id ∈ (cacheAfter maxItems ops).items ∧
        storeGet (cacheAfter maxItems ops).store atom.id = some (atomToEntry atom)) := by
  obtain ⟨hinv, hm⟩ := cacheAfter_inv maxItems ops hmax
  have hmax' : 1 ≤ (cacheAfter maxItems ops).maxItems := by
    rw [hm]
    exact hmax
  obtain ⟨r, st', heq, _, _, _, _, _, _, hiff⟩ :=
    addItem_spec (cacheAfter maxItems ops) atom hmax' hinv
  exact ⟨r, st', heq, hiff⟩

/-- Witness for C5's theorem: a fresh item into an empty one-slot cache. -/
theorem addItem_false_iff_identical_witness :
    (1 ≤ 1) ∧
    ∃ r st', Cache.addItem (cacheAfter 1 []) wAtomT3 = .ok (r, st') ∧
      (r = false ↔ wAtomT3.id ∈ (cacheAfter 1 []).items ∧
        storeGet (cacheAfter 1 []).store wAtomT3.id = some (atomToEntry wAtomT3)) :=
  ⟨by decide, addItem_false_iff_identical 1 (by decide) [] wAtomT3⟩

/-- A full one-slot cache holding `wAtomT3`. -/
def cacheFullT3 : CacheState := cacheAfter 1 [wAtomT3]

/-- C5 counterexample: on a full cache, an uncached item older than the
oldest kept item makes `add_item` return `True` while caching nothing — the
state is unchanged and the id is not in the cache, contradicting "does not
return true for an item that ends up not cached". -/
theorem addItem_true_but_not_cached_counterexample :
    Cache.addItem cacheFullT3 wAtomT1 = .ok (true, cacheFullT3) ∧
    wAtomT1.id ∉ cacheFullT3.items := by
  constructor
  · rfl
  · decide

/-- An atom cached and then deleted in the C9 failing input. -/
def atomX : Atom :=
  { id := "x", author := "xena", content := "hello", objectType := "note",
    inReplyTo := none, published := 7, updated := none, tombstone := false }

/-- C9: `last_update` returns the `never` sentinel on a fresh cache (no
`items` key), but on the state reached by caching one item and then
deleting it — where the `items` key holds an empty list — it raises
`IndexError` (`self._db["items"][0]` on `[]`) instead of returning the
sentinel as the spec requires. -/
theorem lastUpdate_indexError_after_emptying :
    Cache.lastUpdate (CacheState.emptyCache 200) = .ok Cache.neverTs ∧
    ∃ st', Cache.addItem (CacheState.emptyCache 200) atomX = .ok (true, st') ∧
      (Cache.delItem st' "x").items = [] ∧
      (Cache.delItem st' "x").itemsKey = some [] ∧
      Cache.lastUpdate (Cache.delItem st' "x") = .error .indexError := by
  refine ⟨rfl, _, rfl, ?_, ?_, ?_⟩ <;> rfl

/-! ## Display rows (`src/bccc/ui/item.py`) and threads (`src/bccc/ui/thread.py`)

A thread row is an `ItemWidget` (the synthetic placeholder, `tombstone`
false, no `.item` attribute), a `PostWidget` (root, wrapping its atom) or a
`ReplyWidget` (reply, wrapping its atom).  `ThreadList` is a plain list of
rows; `ThreadsWalker` keeps the registry of threads plus the pagination
watermark and the optional composition/editing widget used by `_flatten`.
Python attribute errors (reading `.item` on a placeholder, indexing an
empty thread) are modelled with `Except`. -/
inductive Row where
  | item (id author date text : String)
  | post (it : Atom)
  | reply (it : Atom)
  deriving DecidableEq, Repr

/-- `ItemWidget.id` (from the constructor argument) or the wrapped atom's id. -/
def Row.id : Row → String
  | .item i _ _ _ => i
  | .post a => a.id
  | .reply a => a.id

/-- `ItemWidget.tombstone` is `False`; post/reply widgets forward the
wrapped atom's flag. -/
def Row.tombstone : Row → Bool
  | .item _ _ _ _ => false
  | .post a => a.tombstone
  | .reply a => a.tombstone

/-- The `.item` attribute: only post/reply widgets define it. -/
def Row.itemAttr : Row → Option Atom
  | .item _ _ _ _ => none
  | .post a => some a
  | .reply a => some a

def Row.isReply : Row → Bool
  | .reply _ => true
  | _ => false

/-- `ReplyWidget.__lt__`: `self.item.published < other.item.published`.
Only `ReplyWidget` defines `__lt__` (and no widget defines `__gt__`), so a
comparison whose left operand is not a reply raises `TypeError`, and one
whose right operand has no `.item` raises `AttributeError`. -/
def Row.ltE : Row → Row → Except PyErr Bool
  | .reply x, b =>
    match b.itemAttr with
    | none => .error .attributeError
    | some y => .ok (decide (x.published < y.published))
  | _, _ => .error .typeError

/-- `ThreadList.date`: `self[-1].item.published`. -/
def TL.dateE (t : List Row) : Except PyErr Nat :=
  match t.getLast? with
  | none => .error .indexError
  | some r =>
    match r.itemAttr with
    | none => .error .attributeError
    | some a => .ok a.published

/-- `ThreadList.deleted`: `all(map(lambda p: p.tombstone, self))`. -/
def TL.deleted (t : List Row) : Bool := t.all Row.tombstone

/-- `ThreadList.id`: `self[0].id`. -/
def TL.idE (t : List Row) : Except PyErr String :=
  match t.head? with
  | none => .error .indexError
  | some r => .ok r.id

/-- `ThreadList.__lt__`: `self.date > other.date` ("`>`" because threads
are sorted newest first). -/
def TL.ltE (a b : List Row) : Except PyErr Bool :=
  match TL.dateE a with
  | .error e => .error e
  | .ok x =>
    match TL.dateE b with
    | .error e => .error e
    | .ok y => .ok (decide (y < x))

/-- The walker's extra widget: `None`, a composition widget, or an editing
widget (`src/bccc/ui/item.py`); edit widgets carry the original ids that
`_flatten` reads. -/
inductive ExtraWidget where
  | noWidget
  | newPost
  | newReply (threadId : String)
  | editPost (origId : String)
  | editReply (origThreadId origId : String)
  deriving DecidableEq, Repr

/-- `orig_id` of an edit widget. -/
def ExtraWidget.origId? : ExtraWidget → Option String
  | .editPost oid => some oid
  | .editReply _ oid => some oid
  | _ => none

/-- A row of the flattened display list: a thread row, a divider
(`urwid.Divider(" ")`), or the extra widget itself. -/
inductive FlatRow where
  | row (r : Row)
  | divider
  | widget (e : ExtraWidget)
  deriving DecidableEq, Repr

structure ThreadsWalker where
  threads : List (List Row)
  oldestItem : Option Atom
  morePostsRequested : Bool
  extraWidget : ExtraWidget
  deriving DecidableEq, Repr

def emptyWalker : ThreadsWalker :=
  { threads := [], oldestItem := none, morePostsRequested := false,
    extraWidget := .noWidget }

/-- `ThreadsWalker.find_thread_by_id`: scan for the first thread whose id
matches, returning its position; implicit `None` when absent. -/
def findThreadByIdAux (thrId : String) : Nat → List (List Row) →
    Except PyErr (Option (Nat × List Row))
  | _, [] => .ok none
  | pos, t :: rest =>
    match TL.idE t with
    | .error e => .error e
    | .ok i =>
      if i = thrId then .ok (some (pos, t)) else findThreadByIdAux thrId (pos + 1) rest

def ThreadsWalker.findThreadById (st : ThreadsWalker) (thrId : String) :
    Except PyErr (Option (Nat × List Row)) :=
  findThreadByIdAux thrId 0 st.threads

/-- The comparison `threads[mid] < thr` used by `bisect` over the registry. -/
def threadsBisectCondE (threads : List (List Row)) (thr : List Row) (mid : Nat) :
    Except PyErr Bool :=
  TL.ltE (threads.getD mid []) thr

/-- `bisect.insort_left(self.threads, thr)`. -/
def insortLeftE (threads : List (List Row)) (thr : List Row) :
    Except PyErr (List (List Row)) :=
  match bisectAuxE (threadsBisectCondE threads thr) 0 threads.length with
  | .error e => .error e
  | .ok pos => .ok (threads.insertIdx pos thr)

/-- Thread-key determination of `ThreadsWalker.add` (thread.py lines
210-215): `if item.object_type == "comment" and item.in_reply_to is not
None`.  The `and` short-circuits, so `in_reply_to` is only read for
comments; for a comment the accessor is evaluated, and it raises
`AttributeError` when the element is absent (atom.py line 80) — the `is
not None` test itself is unreachable with `None`, since the accessor
either raises or returns the `ref` string.  A post or status is filed
under its own id. -/
def threadKeyIsPostE (item : Atom) : Except PyErr (String × Bool) :=
  if item.objectType == "comment" then
    match item.inReplyToE with
    | .error e => .error e
    | .ok r => .ok (r, false)
  else .ok (item.id, true)

/-- The placeholder row synthesized for a reply whose root has not arrived. -/
def placeholderRow (thrId : String) : Row :=
  Row.item thrId " " " " "[post not loaded yet]"

/-- The reply-insertion step of `add` (thread.py lines 236-248): bisect
with `lo = 1`, append past the end, insert before a different id, replace
an exact re-delivery. -/
def insertReplyE (thr : List Row) (item : Atom) : Except PyErr (List Row) :=
  match bisectAuxE
      (fun mid => Row.ltE (thr.getD mid (placeholderRow "")) (Row.reply item))
      1 thr.length with
  | .error e => .error e
  | .ok replyPos =>
    if thr.length ≤ replyPos then .ok (thr ++ [Row.reply item])
    else if (thr.getD replyPos (placeholderRow "")).id ≠ item.id then
      .ok (thr.insertIdx replyPos (Row.reply item))
    else .ok (thr.set replyPos (Row.reply item))

/-- The registry repositioning of `add` (thread.py lines 250-257): the
thread was mutated in place, so its new position is searched in the
already-updated registry; moving left deletes then inserts, moving right
inserts then deletes. -/
def repositionE (threads₁ : List (List Row)) (pos : Nat) (thr' : List Row) :
    Except PyErr (List (List Row)) :=
  match bisectAuxE (threadsBisectCondE threads₁ thr') 0 threads₁.length with
  | .error e => .error e
  | .ok newPos =>
    .ok (if newPos < pos then (threads₁.eraseIdx pos).insertIdx newPos thr'
         else if pos < newPos then (threads₁.insertIdx newPos thr').eraseIdx pos
         else threads₁)

/-- `ThreadsWalker.add(item)` (thread.py lines 204-257). -/
def ThreadsWalker.add (st : ThreadsWalker) (item : Atom) :
    Except PyErr ThreadsWalker :=
  let oldest :=
    match st.oldestItem with
    | none => some item
    | some o => if item.published < o.published then some item else some o
  let st := { st with morePostsRequested := false, oldestItem := oldest }
  match threadKeyIsPostE item with
  | .error e => .error e
  | .ok (thrId, itemIsPost) =>
    match findThreadByIdAux thrId 0 st.threads with
    | .error e => .error e
    | .ok none =>
      -- New thread!
      let thr := if itemIsPost then [Row.post item]
                 else [placeholderRow thrId, Row.reply item]
      match insortLeftE st.threads thr with
      | .error e => .error e
      | .ok threads' => .ok { st with threads := threads' }
    | .ok (some (pos, thr)) =>
      -- New post/reply in existing thread: replace the root in place, or
      -- insert the reply, then recompute the thread's registry position
      match (if itemIsPost then .ok (thr.set 0 (Row.post item))
             else insertReplyE thr item : Except PyErr (List Row)) with
      | .error e => .error e
      | .ok thr' =>
        match repositionE (st.threads.set pos thr') pos thr' with
        | .error e => .error e
        | .ok threads₂ => .ok { st with threads := threads₂ }

/-- The widget placement of `_flatten` for one thread (thread.py lines
112-123): the composition widget is appended after its thread, an edit
widget is inserted right after the row it edits (`beg + idx + 1` with
`beg = len(flat_threads)` before the thread was appended). -/
def flattenWidgetIns (ew : ExtraWidget) (replyThrId editThrId : Option String)
    (tid : String) (acc acc₁ : List FlatRow) (thr : List Row) : List FlatRow :=
  if some tid = replyThrId then acc₁ ++ [FlatRow.widget ew]
  else if some tid = editThrId then
    match ew.origId? with
    | some oid =>
      match thr.findIdx? (fun r => r.id == oid) with
      | some idx => acc₁.insertIdx (acc.length + idx + 1) (FlatRow.widget ew)
      | none => acc₁   -- TODO in the source: handle pos == None
    | none => acc₁
  else acc₁

/-- One thread of `ThreadsWalker._flatten` (thread.py lines 104-124):
deleted threads are skipped; otherwise the thread's rows are appended,
then the extra widget where it belongs, then a divider. -/
def flattenGo (ew : ExtraWidget) (replyThrId editThrId : Option String) :
    List FlatRow → List (List Row) → Except PyErr (List FlatRow)
  | acc, [] => .ok acc
  | acc, thr :: rest =>
    if TL.deleted thr then flattenGo ew replyThrId editThrId acc rest
    else
      match TL.idE thr with
      | .error e => .error e
      | .ok tid =>
        flattenGo ew replyThrId editThrId
          (flattenWidgetIns ew replyThrId editThrId tid acc
            (acc ++ thr.map FlatRow.row) thr ++ [FlatRow.divider]) rest

/-- `ThreadsWalker._flatten` (the `flat_threads` it builds): a `NewPost`
widget goes on top, a `NewReply` widget is keyed by its thread id, an edit
widget by its original thread/post id. -/
def ThreadsWalker.flattenE (st : ThreadsWalker) : Except PyErr (List FlatRow) :=
  let base : List FlatRow :=
    match st.extraWidget with
    | .newPost => [FlatRow.widget .newPost]
    | _ => []
  let replyThrId : Option String :=
    match st.extraWidget with
    | .newReply tid => some tid
    | _ => none
  let editThrId : Option String :=
    match st.extraWidget with
    | .editPost oid => some oid
    | .editReply otid _ => some otid
    | _ => none
  flattenGo st.extraWidget replyThrId editThrId base st.threads

/-- Well-formedness of one thread, as `add`/`remove` maintain it: nonempty,
every row after the first is a reply, and a single-row thread's row is a
post or reply (so `ThreadList.date` is defined). -/
def wfThread (t : List Row) : Bool :=
  match t with
  | [] => false
  | r :: rest => (!rest.isEmpty || r.itemAttr.isSome) && rest.all Row.isReply

/-- Registry well-formedness: every thread is well-formed. -/
def ThreadsWalker.wf (st : ThreadsWalker) : Prop :=
  ∀ t ∈ st.threads, wfThread t = true

theorem wfThread_ne_nil {t : List Row} (h : wfThread t = true) : t ≠ [] := by
  intro he
  rw [he] at h
  simp [wfThread] at h

theorem Row.itemAttr_isSome_of_isReply {r : Row} (h : Row.isReply r = true) :
    r.itemAttr.isSome := by
  cases r <;> simp_all [Row.isReply, Row.itemAttr]

theorem wfThread_dateE_ok {t : List Row} (h : wfThread t = true) :
    ∃ d, TL.dateE t = .ok d := by
  match t with
  | [] => exact absurd rfl (wfThread_ne_nil h)
  | r :: rest =>
    simp only [wfThread, Bool.and_eq_true, Bool.or_eq_true] at h
    match hrest : rest, h with
    | [], h =>
      have hsome : r.itemAttr.isSome := by
        rcases h.1 with h1 | h1
        · simp [List.isEmpty] at h1
        · exact h1
      obtain ⟨a, ha⟩ := Option.isSome_iff_exists.mp hsome
      exact ⟨a.published, by simp [TL.dateE, ha]⟩
    | r₂ :: rest₂, h =>
      have hlast : (r :: r₂ :: rest₂).getLast? = some ((r₂ :: rest₂).getLast (by simp)) := by
        rw [List.getLast?_eq_getLast_of_ne_nil (by simp)]
        congr 1
      have hmem : (r₂ :: rest₂).getLast (by simp) ∈ r₂ :: rest₂ := List.getLast_mem _
      have hrep : Row.isReply ((r₂ :: rest₂).getLast (by simp)) = true := by
        rw [List.all_eq_true] at h
        exact h.2 _ hmem
      obtain ⟨a, ha⟩ := Option.isSome_iff_exists.mp (Row.itemAttr_isSome_of_isReply hrep)
      exact ⟨a.published, by simp [TL.dateE, hlast, ha]⟩

theorem wfThread_idE_ok {t : List Row} (h : wfThread t = true) :
    ∃ i, TL.idE t = .ok i := by
  match t with
  | [] => exact absurd rfl (wfThread_ne_nil h)
  | r :: rest => exact ⟨r.id, rfl⟩

/-- The value of an `Except`-producing boolean, defaulting to `false`. -/
def okValD (e : Except PyErr Bool) : Bool :=
  match e with
  | .ok b => b
  | .error _ => false

theorem exceptIsOk_eq (e : Except PyErr Bool) (h : e.isOk) : e = .ok (okValD e) := by
  cases e with
  | ok b => rfl
  | error e' => simp [Except.isOk, Except.toBool] at h

theorem bisectAuxE_ok_of_isOk (cond : Nat → Except PyErr Bool) (lo hi : Nat)
    (h : ∀ i, lo ≤ i → i < hi → (cond i).isOk) :
    bisectAuxE cond lo hi = .ok (bisectAux (fun i => okValD (cond i)) lo hi) :=
  bisectAuxE_eq_ok cond _ lo hi (fun i h1 h2 => exceptIsOk_eq _ (h i h1 h2))

theorem tlLtE_isOk {a b : List Row} (ha : ∃ d, TL.dateE a = .ok d)
    (hb : ∃ d, TL.dateE b = .ok d) : (TL.ltE a b).isOk := by
  obtain ⟨d1, h1⟩ := ha
  obtain ⟨d2, h2⟩ := hb
  simp [TL.ltE, h1, h2, Except.isOk, Except.toBool]

theorem findThreadByIdAux_some (thrId : String) (n : Nat) (threads : List (List Row))
    (pos : Nat) (thr : List Row)
    (h : findThreadByIdAux thrId n threads = .ok (some (pos, thr))) :
    n ≤ pos ∧ pos - n < threads.length ∧ threads[pos - n]? = some thr := by
  induction threads generalizing n with
  | nil => simp [findThreadByIdAux] at h
  | cons t rest ih =>
    simp only [findThreadByIdAux] at h
    cases hi : TL.idE t with
    | error e =>
      rw [hi] at h
      simp at h
    | ok i =>
      rw [hi] at h
      simp only [] at h
      by_cases heq : i = thrId
      · rw [if_pos heq] at h
        simp only [Except.ok.injEq, Option.some.injEq, Prod.mk.injEq] at h
        obtain ⟨hpos, hthr⟩ := h
        subst hpos
        subst hthr
        exact ⟨Nat.le_refl _, by simp, by simp⟩
      · rw [if_neg heq] at h
        obtain ⟨h1, h2, h3⟩ := ih (n + 1) h
        refine ⟨by omega, by simp; omega, ?_⟩
        have : pos - n = (pos - (n + 1)) + 1 := by omega
        rw [this]
        simpa using h3

theorem insortLeftE_ok (threads : List (List Row)) (thr : List Row)
    (hall : ∀ t ∈ threads, ∃ d, TL.dateE t = .ok d)
    (hthr : ∃ d, TL.dateE thr = .ok d) :
    ∃ pos, pos ≤ threads.length ∧
      insortLeftE threads thr = .ok (threads.insertIdx pos thr) := by
  have hok : ∀ i, 0 ≤ i → i < threads.length → (threadsBisectCondE threads thr i).isOk := by
    intro i _ hi
    refine tlLtE_isOk (hall _ ?_) hthr
    rw [show threads.getD i [] = threads[i] from by
      rw [List.getD_eq_getElem?_getD, List.getElem?_eq_getElem hi]
      rfl]
    exact List.getElem_mem hi
  refine ⟨bisectAux (fun i => okValD (threadsBisectCondE threads thr i)) 0 threads.length,
    bisectAux_le _ 0 _ (Nat.zero_le _), ?_⟩
  simp only [insortLeftE, bisectAuxE_ok_of_isOk _ 0 _ hok]

/-- `add` on a key with no existing thread: the new thread — a sole root,
or a placeholder followed by the reply — is inserted into the registry. -/
theorem addW_new (st : ThreadsWalker) (item : Atom) (k : String) (isPost : Bool)
    (hwf : st.wf)
    (hkey : threadKeyIsPostE item = .ok (k, isPost))
    (hfind : findThreadByIdAux k 0 st.threads = .ok none) :
    ∃ st' pos, st.add item = .ok st' ∧
      pos ≤ st.threads.length ∧
      st'.threads = st.threads.insertIdx pos
        (if isPost then [Row.post item] else [placeholderRow k, Row.reply item]) ∧
      st'.wf := by
  have hwfthr : wfThread
      (if isPost then [Row.post item] else [placeholderRow k, Row.reply item]) = true := by
    cases isPost <;> simp [wfThread, Row.itemAttr, Row.isReply, placeholderRow]
  obtain ⟨pos, hpos, hins⟩ := insortLeftE_ok st.threads
    (if isPost then [Row.post item] else [placeholderRow k, Row.reply item])
    (fun t ht => wfThread_dateE_ok (hwf t ht)) (wfThread_dateE_ok hwfthr)
  refine ⟨{ st with
      morePostsRequested := false
      oldestItem := match st.oldestItem with
        | none => some item
        | some o => if item.published < o.published then some item else some o
      threads := st.threads.insertIdx pos
        (if isPost then [Row.post item] else [placeholderRow k, Row.reply item]) },
    pos, ?_, hpos, rfl, ?_⟩
  · show st.add item = _
    simp only [ThreadsWalker.add, hkey, hfind, hins]
  · intro t ht
    rcases (List.mem_insertIdx hpos).mp ht with rfl | hmem
    · exact hwfthr
    · exact hwf t hmem

/-- `root_present` of a thread: its first row is a real post. -/
def rootPresent (t : List Row) : Bool :=
  match t.head? with
  | some (Row.post _) => true
  | _ => false

/-- The out-of-order scenario's comment, published at `t1`. -/
def c1Atom (t1 : Nat) : Atom :=
  { id := "c1", author := "alice", content := "the reply", objectType := "comment",
    inReplyTo := some "p1", published := t1, updated := none, tombstone := false }

/-- The out-of-order scenario's root post, published at `t0`. -/
def p1Atom (t0 : Nat) : Atom :=
  { id := "p1", author := "bob", content := "the post", objectType := "note",
    inReplyTo := none, published := t0, updated := none, tombstone := false }

/-- The walker after adding only the orphan comment. -/
def st1val (t1 : Nat) : ThreadsWalker :=
  { threads := [[placeholderRow "p1", Row.reply (c1Atom t1)]],
    oldestItem := some (c1Atom t1), morePostsRequested := false,
    extraWidget := .noWidget }

/-- The walker after the root arrives. -/
def st2val (t0 t1 : Nat) : ThreadsWalker :=
  { threads := [[Row.post (p1Atom t0), Row.reply (c1Atom t1)]],
    oldestItem := some (p1Atom t0), morePostsRequested := false,
    extraWidget := .noWidget }

/-- C7. Out-of-order arrival: adding the comment `c1` (reply to `p1`)
before `p1` creates a single thread headed by a synthetic placeholder
(`root_present` false) followed by the reply; adding `p1` afterwards
replaces the placeholder in place, giving row order `[Root(p1), Reply(c1)]`
with `root_present` true. -/
theorem out_of_order_reply_then_root (t0 t1 : Nat) (h : t0 < t1) :
    emptyWalker.add (c1Atom t1) = .ok (st1val t1) ∧
    (st1val t1).threads = [[placeholderRow "p1", Row.reply (c1Atom t1)]] ∧
    rootPresent ((st1val t1).threads.headD []) = false ∧
    (st1val t1).add (p1Atom t0) = .ok (st2val t0 t1) ∧
    (st2val t0 t1).threads = [[Row.post (p1Atom t0), Row.reply (c1Atom t1)]] ∧
    rootPresent ((st2val t0 t1).threads.headD []) = true := by
  refine ⟨rfl, rfl, rfl, ?_, rfl, rfl⟩
  have hcond : threadsBisectCondE [[Row.post (p1Atom t0), Row.reply (c1Atom t1)]]
      [Row.post (p1Atom t0), Row.reply (c1Atom t1)] 0 = .ok false := by
    show TL.ltE [Row.post (p1Atom t0), Row.reply (c1Atom t1)]
      [Row.post (p1Atom t0), Row.reply (c1Atom t1)] = .ok false
    simp only [TL.ltE,
      show TL.dateE [Row.post (p1Atom t0), Row.reply (c1Atom t1)] = .ok t1 from rfl,
      decide_eq_false (Nat.lt_irrefl t1)]
  have hbis : bisectAuxE (threadsBisectCondE
      [[Row.post (p1Atom t0), Row.reply (c1Atom t1)]]
      [Row.post (p1Atom t0), Row.reply (c1Atom t1)]) 0 1 = .ok 0 := by
    show bisectGoE _ 1 0 1 = .ok 0
    simp only [bisectGoE, if_pos (show (0 : Nat) < 1 by omega)]
    rw [show ((0 : Nat) + 1) / 2 = 0 from rfl, hcond]
  have hrepos : repositionE [[Row.post (p1Atom t0), Row.reply (c1Atom t1)]] 0
      [Row.post (p1Atom t0), Row.reply (c1Atom t1)] =
      .ok [[Row.post (p1Atom t0), Row.reply (c1Atom t1)]] := by
    simp only [repositionE,
      show ([[Row.post (p1Atom t0), Row.reply (c1Atom t1)]] : List (List Row)).length = 1
        from rfl, hbis]
    rfl
  simp only [ThreadsWalker.add,
    show threadKeyIsPostE (p1Atom t0) = .ok ("p1", true) from rfl,
    show (st1val t1).oldestItem = some (c1Atom t1) from rfl,
    show (p1Atom t0).published = t0 from rfl,
    show (c1Atom t1).published = t1 from rfl,
    if_pos h,
    show findThreadByIdAux "p1" 0 (st1val t1).threads =
      .ok (some (0, [placeholderRow "p1", Row.reply (c1Atom t1)])) from rfl]
  simp only [if_pos trivial,
    show ([placeholderRow "p1", Row.reply (c1Atom t1)].set 0 (Row.post (p1Atom t0))) =
      [Row.post (p1Atom t0), Row.reply (c1Atom t1)] from rfl,
    show ((st1val t1).threads.set 0 [Row.post (p1Atom t0), Row.reply (c1Atom t1)]) =
      [[Row.post (p1Atom t0), Row.reply (c1Atom t1)]] from rfl,
    hrepos]
  rfl

/-- Witness for C7 at `T0 = 0 < 1 = T1`. -/
theorem out_of_order_reply_then_root_witness :
    (0 < 1) ∧
    (emptyWalker.add (c1Atom 1) = .ok (st1val 1) ∧
      (st1val 1).threads = [[placeholderRow "p1", Row.reply (c1Atom 1)]] ∧
      rootPresent ((st1val 1).threads.headD []) = false ∧
      (st1val 1).add (p1Atom 0) = .ok (st2val 0 1) ∧
      (st2val 0 1).threads = [[Row.post (p1Atom 0), Row.reply (c1Atom 1)]] ∧
      rootPresent ((st2val 0 1).threads.headD []) = true) :=
  ⟨by decide, out_of_order_reply_then_root 0 1 (by decide)⟩

/-- A comment carrying no `in_reply_to` value. -/
def commentNoReply : Atom :=
  { id := "c9", author := "carl", content := "orphan", objectType := "comment",
    inReplyTo := none, published := 4, updated := none, tombstone := false }

/-- C8. The thread key is the record's own id for non-comments (posts and
statuses) and the `in_reply_to` target for a comment carrying one; but a
comment whose `in_reply_to` element is absent is NOT treated as a post:
reading `item.in_reply_to` in the key test (thread.py line 213) raises
`AttributeError` (atom.py line 80), so `add` propagates the error instead
of rooting a new thread. -/
theorem thread_key_selection_and_rootless_comment :
    (∀ item : Atom, item.objectType ≠ "comment" →
      threadKeyIsPostE item = .ok (item.id, true)) ∧
    (∀ item : Atom, ∀ r : String, item.objectType = "comment" →
      item.inReplyTo = some r → threadKeyIsPostE item = .ok (r, false)) ∧
    (∀ item : Atom, item.objectType = "comment" → item.inReplyTo = none →
      threadKeyIsPostE item = .error .attributeError) ∧
    (∀ st : ThreadsWalker, ∀ item : Atom,
      item.objectType = "comment" → item.inReplyTo = none →
      st.add item = .error .attributeError) := by
  have key3 : ∀ item : Atom, item.objectType = "comment" → item.inReplyTo = none →
      threadKeyIsPostE item = .error .attributeError := by
    intro item hty hin
    simp [threadKeyIsPostE, Atom.inReplyToE, hty, hin]
  refine ⟨?_, ?_, key3, ?_⟩
  · intro item hty
    have hbe : (item.objectType == "comment") = false := by simpa using hty
    simp [threadKeyIsPostE, hbe]
  · intro item r hty hin
    simp [threadKeyIsPostE, Atom.inReplyToE, hty, hin]
  · intro st item hty hin
    simp only [ThreadsWalker.add, key3 item hty hin]

/-- Witness for C8: a post, a comment with a target, and the failing input
of the bug — a root-less comment, whose `add` on the empty walker raises. -/
theorem thread_key_selection_witness :
    ((p1Atom 0).objectType ≠ "comment" ∧
      threadKeyIsPostE (p1Atom 0) = .ok ((p1Atom 0).id, true)) ∧
    ((c1Atom 1).objectType = "comment" ∧ (c1Atom 1).inReplyTo = some "p1" ∧
      threadKeyIsPostE (c1Atom 1) = .ok ("p1", false)) ∧
    (commentNoReply.objectType = "comment" ∧ commentNoReply.inReplyTo = none ∧
      threadKeyIsPostE commentNoReply = .error .attributeError) ∧
    emptyWalker.add commentNoReply = .error .attributeError :=
  ⟨⟨by decide, thread_key_selection_and_rootless_comment.1 (p1Atom 0) (by decide)⟩,
   ⟨by decide, by decide,
     thread_key_selection_and_rootless_comment.2.1 (c1Atom 1) "p1" (by decide) (by decide)⟩,
   ⟨by decide, by decide,
     thread_key_selection_and_rootless_comment.2.2.1 commentNoReply (by decide) (by decide)⟩,
   thread_key_selection_and_rootless_comment.2.2.2 emptyWalker commentNoReply
     (by decide) (by decide)⟩

theorem perm_cons_eraseIdx {α : Type} (l : List α) (i : Nat) (h : i < l.length) :
    l.Perm (l[i] :: l.eraseIdx i) := by
  conv_lhs => rw [← List.take_append_drop i l]
  rw [List.eraseIdx_eq_take_drop_succ]
  rw [List.drop_eq_getElem_cons h]
  exact List.perm_middle

theorem set_zero_eq_cons {α : Type} (t : List α) (x : α) (h : t ≠ []) :
    t.set 0 x = x :: t.drop 1 := by
  cases t with
  | nil => exact absurd rfl h
  | cons a rest => rfl

theorem wfThread_cons {r : Row} {rest : List Row}
    (h : wfThread (r :: rest) = true) : rest.all Row.isReply = true := by
  simp only [wfThread, Bool.and_eq_true] at h
  exact h.2

/-- The reply-insertion step always succeeds on a well-formed thread, adds
the reply widget, and only rearranges existing rows around it. -/
theorem insertReplyE_ok (thr : List Row) (item : Atom) (hwfthr : wfThread thr = true) :
    ∃ thr', insertReplyE thr item = .ok thr' ∧
      Row.reply item ∈ thr' ∧
      (∀ r ∈ thr', r ∈ thr ∨ r = Row.reply item) ∧
      wfThread thr' = true := by
  match hthr : thr, hwfthr with
  | r₀ :: rest, hwfthr =>
    have hrest := wfThread_cons hwfthr
    rw [List.all_eq_true] at hrest
    have hok : ∀ i, 1 ≤ i → i < (r₀ :: rest).length →
        ((fun mid => Row.ltE ((r₀ :: rest).getD mid (placeholderRow ""))
          (Row.reply item)) i).isOk := by
      intro i h1 hi
      have hget : (r₀ :: rest).getD i (placeholderRow "") = (r₀ :: rest)[i] := by
        rw [List.getD_eq_getElem?_getD, List.getElem?_eq_getElem hi]
        rfl
      have hmem : (r₀ :: rest)[i] ∈ rest := by
        match i, h1, hi with
        | i + 1, _, hi =>
          simp only [List.getElem_cons_succ]
          exact List.getElem_mem (by simpa using hi)
      have hrep := hrest _ hmem
      simp only [hget]
      cases hre : (r₀ :: rest)[i] with
      | item a b c d => rw [hre] at hrep; simp [Row.isReply] at hrep
      | post a => rw [hre] at hrep; simp [Row.isReply] at hrep
      | reply a => simp [Row.ltE, Row.itemAttr, Except.isOk, Except.toBool]
    obtain ⟨rp, hbis, hrp1, hrplen⟩ : ∃ rp,
        bisectAuxE (fun mid => Row.ltE ((r₀ :: rest).getD mid (placeholderRow ""))
          (Row.reply item)) 1 (r₀ :: rest).length = .ok rp ∧
        1 ≤ rp ∧ rp ≤ (r₀ :: rest).length :=
      ⟨_, bisectAuxE_ok_of_isOk _ 1 _ hok, le_bisectAux _ 1 _,
        bisectAux_le _ 1 _ (by simp)⟩
    by_cases hend : (r₀ :: rest).length ≤ rp
    · refine ⟨(r₀ :: rest) ++ [Row.reply item], ?_, by simp, ?_, ?_⟩
      · simp only [insertReplyE, hbis, if_pos hend]
      · intro r hr
        rcases List.mem_append.mp hr with h | h
        · exact Or.inl h
        · simp at h
          exact Or.inr h
      · simp only [List.cons_append, wfThread, Bool.and_eq_true, List.all_eq_true]
        refine ⟨by simp, ?_⟩
        intro x hx
        rcases List.mem_append.mp hx with h | h
        · exact hrest x h
        · simp at h
          subst h
          rfl
    · push_neg at hend
      obtain ⟨q, rfl⟩ : ∃ q, rp = q + 1 := ⟨rp - 1, by omega⟩
      have hqlen : q < rest.length := by
        simp only [List.length_cons] at hend
        omega
      by_cases hid : ((r₀ :: rest).getD (q + 1) (placeholderRow "")).id ≠ item.id
      · refine ⟨(r₀ :: rest).insertIdx (q + 1) (Row.reply item), ?_, ?_, ?_, ?_⟩
        · simp only [insertReplyE, hbis,
            if_neg (show ¬((r₀ :: rest).length ≤ q + 1) from by omega), if_pos hid]
        · exact (List.perm_insertIdx _ _ (by simp; omega)).mem_iff.mpr (by simp)
        · intro r hr
          rcases (List.mem_insertIdx (by simp; omega)).mp hr with h | h
          · exact Or.inr h
          · exact Or.inl h
        · rw [List.insertIdx_succ_cons]
          simp only [wfThread, Bool.and_eq_true, List.all_eq_true]
          have hlen1 : (List.insertIdx q (Row.reply item) rest).length = rest.length + 1 := by
            rw [List.length_insertIdx]
            simp [Nat.le_of_lt hqlen]
          constructor
          · simp only [Bool.or_eq_true, Bool.not_eq_true']
            left
            cases hcase : List.insertIdx q (Row.reply item) rest with
            | nil =>
                rw [hcase] at hlen1
                simp at hlen1
            | cons a as => rfl
          · intro x hx
            rcases (List.mem_insertIdx (by omega)).mp hx with h | h
            · subst h
              rfl
            · exact hrest x h
      · push_neg at hid
        refine ⟨(r₀ :: rest).set (q + 1) (Row.reply item), ?_, ?_, ?_, ?_⟩
        · simp only [insertReplyE, hbis,
            if_neg (show ¬((r₀ :: rest).length ≤ q + 1) from by omega)]
          rw [if_neg (show ¬(((r₀ :: rest).getD (q + 1) (placeholderRow "")).id ≠ item.id)
            from fun hc => hc hid)]
        · have hbound : q + 1 < ((r₀ :: rest).set (q + 1) (Row.reply item)).length := by
            simp only [List.length_set]
            exact hend
          have hg : ((r₀ :: rest).set (q + 1) (Row.reply item))[q + 1] =
              Row.reply item := List.getElem_set_self hbound
          have hmem := List.getElem_mem hbound
          rw [hg] at hmem
          exact hmem
        · intro r hr
          rcases List.mem_or_eq_of_mem_set hr with h | h
          · exact Or.inl h
          · exact Or.inr h
        · rw [List.set_cons_succ]
          simp only [wfThread, Bool.and_eq_true, List.all_eq_true]
          refine ⟨?_, ?_⟩
          · have hne : rest.set q (Row.reply item) ≠ [] := by
              intro he
              have hlen : (rest.set q (Row.reply item)).length = 0 := by
                rw [he]
                rfl
              rw [List.length_set] at hlen
              omega
            simp [List.isEmpty_iff, hne]
          · intro x hx
            rcases List.mem_or_eq_of_mem_set hx with h | h
            · exact hrest x h
            · subst h
              rfl

/-- Repositioning a thread that already sits in the registry at `pos`
succeeds and merely permutes the registry, keeping the thread a member. -/
theorem repositionE_ok (threads₁ : List (List Row)) (pos : Nat) (thr' : List Row)
    (hall : ∀ t ∈ threads₁, ∃ d, TL.dateE t = .ok d)
    (hpos : pos < threads₁.length)
    (hat : threads₁[pos] = thr') :
    ∃ threads₂, repositionE threads₁ pos thr' = .ok threads₂ ∧
      threads₂.Perm threads₁ ∧ thr' ∈ threads₂ := by
  have hmemthr : thr' ∈ threads₁ := hat ▸ List.getElem_mem hpos
  have hthr : ∃ d, TL.dateE thr' = .ok d := hall _ hmemthr
  have hok : ∀ i, 0 ≤ i → i < threads₁.length →
      (threadsBisectCondE threads₁ thr' i).isOk := by
    intro i _ hi
    refine tlLtE_isOk (hall _ ?_) hthr
    rw [show threads₁.getD i [] = threads₁[i] from by
      rw [List.getD_eq_getElem?_getD, List.getElem?_eq_getElem hi]
      rfl]
    exact List.getElem_mem hi
  obtain ⟨newPos, hbis, hnple⟩ : ∃ np,
      bisectAuxE (threadsBisectCondE threads₁ thr') 0 threads₁.length = .ok np ∧
      np ≤ threads₁.length :=
    ⟨_, bisectAuxE_ok_of_isOk _ 0 threads₁.length hok,
      bisectAux_le _ 0 _ (Nat.zero_le _)⟩
  have hperm : (if newPos < pos then (threads₁.eraseIdx pos).insertIdx newPos thr'
      else if pos < newPos then (threads₁.insertIdx newPos thr').eraseIdx pos
      else threads₁).Perm threads₁ := by
    by_cases h1 : newPos < pos
    · rw [if_pos h1]
      have hel : (threads₁.eraseIdx pos).length = threads₁.length - 1 := by
        rw [List.length_eraseIdx]
        simp [hpos]
      have he : newPos ≤ (threads₁.eraseIdx pos).length := by
        rw [hel]
        omega
      refine (List.perm_insertIdx _ _ he).trans ?_
      rw [← hat]
      exact (perm_cons_eraseIdx threads₁ pos hpos).symm
    · rw [if_neg h1]
      by_cases h2 : pos < newPos
      · rw [if_pos h2]
        have hml : (threads₁.insertIdx newPos thr').length = threads₁.length + 1 := by
          rw [List.length_insertIdx]
          simp [hnple]
        have hposM : pos < (threads₁.insertIdx newPos thr').length := by
          rw [hml]
          omega
        have hgp : (threads₁.insertIdx newPos thr')[pos] = threads₁[pos] :=
          List.getElem_insertIdx_of_lt threads₁ thr' newPos pos h2 hpos
        have hc1 : (threads₁.insertIdx newPos thr').Perm (thr' :: threads₁) :=
          List.perm_insertIdx _ _ hnple
        have hc2 := perm_cons_eraseIdx (threads₁.insertIdx newPos thr') pos hposM
        rw [hgp, hat] at hc2
        exact ((hc1.symm.trans hc2).cons_inv).symm
      · rw [if_neg h2]
  refine ⟨_, by simp only [repositionE, hbis], hperm, hperm.mem_iff.mpr hmemthr⟩

/-- `add` on a key whose thread already exists: the root row is replaced in
place when the record roots its thread, or the reply is inserted; the
registry is the old one with that thread updated, up to reordering. -/
theorem addW_existing (st : ThreadsWalker) (item : Atom) (k : String) (isPost : Bool)
    (pos : Nat) (thr : List Row)
    (hwf : st.wf)
    (hkey : threadKeyIsPostE item = .ok (k, isPost))
    (hfind : findThreadByIdAux k 0 st.threads = .ok (some (pos, thr))) :
    ∃ st' thr', st.add item = .ok st' ∧
      (isPost = true → thr' = thr.set 0 (Row.post item)) ∧
      (isPost = false → Row.reply item ∈ thr' ∧
        ∀ r ∈ thr', r ∈ thr ∨ r = Row.reply item) ∧
      wfThread thr' = true ∧
      st'.threads.Perm (st.threads.set pos thr') ∧
      thr' ∈ st'.threads ∧
      st'.wf ∧ st'.extraWidget = st.extraWidget := by
  obtain ⟨-, hposlen, hgetthr⟩ := findThreadByIdAux_some k 0 st.threads pos thr hfind
  rw [Nat.sub_zero] at hposlen hgetthr
  have hget : st.threads[pos] = thr := by
    have h := hgetthr
    rw [List.getElem?_eq_getElem hposlen] at h
    exact Option.some.inj h
  have hthrmem : thr ∈ st.threads := hget ▸ List.getElem_mem hposlen
  have hwfthr : wfThread thr = true := hwf thr hthrmem
  obtain ⟨thr', hstep, hprop⟩ : ∃ thr',
      (if isPost then .ok (thr.set 0 (Row.post item))
        else insertReplyE thr item : Except PyErr (List Row)) = .ok thr' ∧
      ((isPost = true → thr' = thr.set 0 (Row.post item)) ∧
       (isPost = false → Row.reply item ∈ thr' ∧
         ∀ r ∈ thr', r ∈ thr ∨ r = Row.reply item) ∧
       wfThread thr' = true) := by
    cases isPost with
    | true =>
      refine ⟨thr.set 0 (Row.post item), by simp, fun _ => rfl,
        fun hc => by simp at hc, ?_⟩
      match thr, hwfthr with
      | r :: rest, hwfthr =>
        show wfThread (Row.post item :: rest) = true
        simp only [wfThread, Bool.and_eq_true]
        exact ⟨by simp [Row.itemAttr], wfThread_cons hwfthr⟩
    | false =>
      obtain ⟨t', h1, h2, h3, h4⟩ := insertReplyE_ok thr item hwfthr
      exact ⟨t', by simpa using h1, fun hc => by simp at hc, fun _ => ⟨h2, h3⟩, h4⟩
  have hall₁ : ∀ t ∈ st.threads.set pos thr', ∃ d, TL.dateE t = .ok d := by
    intro t ht
    rcases List.mem_or_eq_of_mem_set ht with h | h
    · exact wfThread_dateE_ok (hwf t h)
    · subst h
      exact wfThread_dateE_ok hprop.2.2
  have hpos₁ : pos < (st.threads.set pos thr').length := by
    rw [List.length_set]
    exact hposlen
  have hat₁ : (st.threads.set pos thr')[pos] = thr' :=
    List.getElem_set_self hpos₁
  obtain ⟨threads₂, hrepos, hperm, hmem₂⟩ :=
    repositionE_ok (st.threads.set pos thr') pos thr' hall₁ hpos₁ hat₁
  refine ⟨{ st with
      morePostsRequested := false
      oldestItem := match st.oldestItem with
        | none => some item
        | some o => if item.published < o.published then some item else some o
      threads := threads₂ },
    thr', ?_, hprop.1, hprop.2.1, hprop.2.2, hperm, hmem₂, ?_, rfl⟩
  · show st.add item = _
    simp only [ThreadsWalker.add, hkey, hfind, hstep, hrepos]
  · intro t ht
    rcases List.mem_or_eq_of_mem_set (hperm.mem_iff.mp ht) with h | h
    · exact hwf t h
    · subst h
      exact hprop.2.2

theorem mem_insertIdx_of_mem {α : Type} {x a : α} (n : Nat) (l : List α)
    (h : x ∈ l) : x ∈ l.insertIdx n a := by
  induction l generalizing n with
  | nil => simp at h
  | cons b rest ih =>
    cases n with
    | zero =>
      rw [List.insertIdx_zero]
      exact List.mem_cons_of_mem a h
    | succ n =>
      rw [List.insertIdx_succ_cons]
      rcases List.mem_cons.mp h with rfl | h'
      · exact List.mem_cons_self _ _
      · exact List.mem_cons_of_mem _ (ih n h')

theorem mem_of_mem_insertIdx {α : Type} {x a : α} {n : Nat} {l : List α}
    (h : x ∈ l.insertIdx n a) : x = a ∨ x ∈ l := by
  induction l generalizing n with
  | nil =>
    cases n with
    | zero =>
      rw [List.insertIdx_zero] at h
      simpa using h
    | succ n =>
      simp [List.insertIdx] at h
  | cons b rest ih =>
    cases n with
    | zero =>
      rw [List.insertIdx_zero] at h
      rcases List.mem_cons.mp h with rfl | h'
      · exact Or.inl rfl
      · exact Or.inr h'
    | succ n =>
      rw [List.insertIdx_succ_cons] at h
      rcases List.mem_cons.mp h with rfl | h'
      · exact Or.inr (List.mem_cons_self _ _)
      · rcases ih h' with h'' | h''
        · exact Or.inl h''
        · exact Or.inr (List.mem_cons_of_mem _ h'')

theorem flattenWidgetIns_cases (ew : ExtraWidget) (rid eid : Option String)
    (tid : String) (acc acc₁ : List FlatRow) (thr : List Row) :
    flattenWidgetIns ew rid eid tid acc acc₁ thr = acc₁ ++ [FlatRow.widget ew] ∨
    (∃ n, flattenWidgetIns ew rid eid tid acc acc₁ thr =
      acc₁.insertIdx n (FlatRow.widget ew)) ∨
    flattenWidgetIns ew rid eid tid acc acc₁ thr = acc₁ := by
  unfold flattenWidgetIns
  split
  · exact Or.inl rfl
  · split
    · split
      · split
        · exact Or.inr (Or.inl ⟨_, rfl⟩)
        · exact Or.inr (Or.inr rfl)
      · exact Or.inr (Or.inr rfl)
    · exact Or.inr (Or.inr rfl)

theorem flattenWidgetIns_mem (ew : ExtraWidget) (rid eid : Option String)
    (tid : String) (acc acc₁ : List FlatRow) (thr : List Row) :
    (∀ x ∈ acc₁, x ∈ flattenWidgetIns ew rid eid tid acc acc₁ thr) ∧
    (∀ y ∈ flattenWidgetIns ew rid eid tid acc acc₁ thr,
      y ∈ acc₁ ∨ y = FlatRow.widget ew) := by
  rcases flattenWidgetIns_cases ew rid eid tid acc acc₁ thr with h | ⟨n, h⟩ | h <;> rw [h]
  · constructor
    · intro x hx
      exact List.mem_append_left _ hx
    · intro y hy
      rcases List.mem_append.mp hy with h' | h'
      · exact Or.inl h'
      · exact Or.inr (by simpa using h')
  · constructor
    · intro x hx
      exact mem_insertIdx_of_mem _ _ hx
    · intro y hy
      exact (mem_of_mem_insertIdx hy).symm
  · exact ⟨fun x hx => hx, fun y hy => Or.inl hy⟩

/-- Characterization of the `_flatten` loop: it never fails on well-formed
threads, keeps everything already accumulated, shows every row of every
non-deleted thread, and sources every displayed row either from the
accumulator or from a non-deleted thread. -/
theorem flattenGo_spec (ew : ExtraWidget) (rid eid : Option String)
    (threads : List (List Row)) :
    ∀ acc : List FlatRow, (∀ t ∈ threads, wfThread t = true) →
    ∃ out, flattenGo ew rid eid acc threads = .ok out ∧
      (∀ x ∈ acc, x ∈ out) ∧
      (∀ thr ∈ threads, TL.deleted thr = false → ∀ r ∈ thr, FlatRow.row r ∈ out) ∧
      (∀ r : Row, FlatRow.row r ∈ out → FlatRow.row r ∈ acc ∨
        ∃ thr ∈ threads, TL.deleted thr = false ∧ r ∈ thr) := by
  induction threads with
  | nil =>
    intro acc _
    exact ⟨acc, rfl, fun x hx => hx, by simp, fun r hr => Or.inl hr⟩
  | cons thr rest ih =>
    intro acc hall
    have hwfthr := hall thr (List.mem_cons_self _ _)
    have hallrest : ∀ t ∈ rest, wfThread t = true :=
      fun t ht => hall t (List.mem_cons_of_mem _ ht)
    by_cases hdel : TL.deleted thr
    · obtain ⟨out, hrun, hacc, hinc, hsrc⟩ := ih acc hallrest
      refine ⟨out, ?_, hacc, ?_, ?_⟩
      · simp only [flattenGo, if_pos hdel]
        exact hrun
      · intro t ht hdelt r hr
        rcases List.mem_cons.mp ht with rfl | ht'
        · rw [hdelt] at hdel
          simp at hdel
        · exact hinc t ht' hdelt r hr
      · intro r hr
        rcases hsrc r hr with h | ⟨t, ht, hd, hrt⟩
        · exact Or.inl h
        · exact Or.inr ⟨t, List.mem_cons_of_mem _ ht, hd, hrt⟩
    · obtain ⟨tid, htid⟩ := wfThread_idE_ok hwfthr
      obtain ⟨hin₂, hout₂⟩ := flattenWidgetIns_mem ew rid eid tid acc
        (acc ++ thr.map FlatRow.row) thr
      obtain ⟨out, hrun, hacc, hinc, hsrc⟩ := ih
        (flattenWidgetIns ew rid eid tid acc (acc ++ thr.map FlatRow.row) thr
          ++ [FlatRow.divider]) hallrest
      refine ⟨out, ?_, ?_, ?_, ?_⟩
      · simp only [flattenGo, if_neg hdel, htid]
        exact hrun
      · intro x hx
        exact hacc _ (List.mem_append_left _ (hin₂ _ (List.mem_append_left _ hx)))
      · intro t ht hdelt r hr
        rcases List.mem_cons.mp ht with rfl | ht'
        · refine hacc _ (List.mem_append_left _ (hin₂ _ (List.mem_append_right _ ?_)))
          exact List.mem_map_of_mem FlatRow.row hr
        · exact hinc t ht' hdelt r hr
      · intro r hr
        rcases hsrc r hr with h | ⟨t, ht, hd, hrt⟩
        · rcases List.mem_append.mp h with h' | h'
          · rcases hout₂ _ h' with h'' | h''
            · rcases List.mem_append.mp h'' with h3 | h3
              · exact Or.inl h3
              · obtain ⟨r', hr', he⟩ := List.mem_map.mp h3
                have : r = r' := by
                  cases he
                  rfl
                subst this
                exact Or.inr ⟨thr, List.mem_cons_self _ _,
                  Bool.eq_false_iff.mpr hdel, hr'⟩
            · simp at h''
          · simp at h'
        · exact Or.inr ⟨t, List.mem_cons_of_mem _ ht, hd, hrt⟩

/-- C10. When a thread with key `k` already exists, adding a non-comment
record with id `k` replaces the thread's first row by a root row built from
the incoming record unconditionally — also when the first row is a real,
previously-arrived root — keeps the reply rows unchanged, and does not
create a second thread: the registry is the old one with that single
thread updated, up to reordering, with unchanged length. -/
theorem root_redelivery_replaces_in_place (st : ThreadsWalker) (item : Atom)
    (pos : Nat) (thr : List Row)
    (hwf : st.wf)
    (hty : item.objectType ≠ "comment")
    (hfind : findThreadByIdAux item.id 0 st.threads = .ok (some (pos, thr))) :
    ∃ st', st.add item = .ok st' ∧
      (Row.post item :: thr.drop 1) ∈ st'.threads ∧
      st'.threads.Perm (st.threads.set pos (Row.post item :: thr.drop 1)) ∧
      st'.threads.length = st.threads.length ∧
      st'.wf := by
  have hkey : threadKeyIsPostE item = .ok (item.id, true) := by
    have hbe : (item.objectType == "comment") = false := by simpa using hty
    simp [threadKeyIsPostE, hbe]
  obtain ⟨-, hposlen, hgetthr⟩ := findThreadByIdAux_some item.id 0 st.threads pos thr hfind
  rw [Nat.sub_zero] at hposlen hgetthr
  have hget : st.threads[pos] = thr := by
    have h := hgetthr
    rw [List.getElem?_eq_getElem hposlen] at h
    exact Option.some.inj h
  have hthrmem : thr ∈ st.threads := hget ▸ List.getElem_mem hposlen
  have hne : thr ≠ [] := wfThread_ne_nil (hwf thr hthrmem)
  obtain ⟨st', thr', hadd, hpost, -, -, hperm, hmem, hwf', -⟩ :=
    addW_existing st item item.id true pos thr hwf hkey hfind
  have hthr' : thr' = Row.post item :: thr.drop 1 := by
    rw [hpost rfl]
    exact set_zero_eq_cons thr (Row.post item) hne
  subst hthr'
  refine ⟨st', hadd, hmem, hperm, ?_, hwf'⟩
  rw [hperm.length_eq, List.length_set]

/-- Witness for C10: re-delivering the root `p1` (a newer version published
at 5) to the walker that already holds the real root and the reply. -/
theorem root_redelivery_replaces_in_place_witness :
    ∃ st', (st2val 0 1).add (p1Atom 5) = .ok st' ∧
      (Row.post (p1Atom 5) ::
        [Row.post (p1Atom 0), Row.reply (c1Atom 1)].drop 1) ∈ st'.threads ∧
      st'.threads.Perm ((st2val 0 1).threads.set 0
        (Row.post (p1Atom 5) ::
          [Row.post (p1Atom 0), Row.reply (c1Atom 1)].drop 1)) ∧
      st'.threads.length = (st2val 0 1).threads.length ∧
      st'.wf :=
  root_redelivery_replaces_in_place (st2val 0 1) (p1Atom 5) 0
    [Row.post (p1Atom 0), Row.reply (c1Atom 1)]
    (fun t ht => by
      rw [show (st2val 0 1).threads =
        [[Row.post (p1Atom 0), Row.reply (c1Atom 1)]] from rfl] at ht
      simp only [List.mem_singleton] at ht
      subst ht
      decide)
    (by decide) rfl

theorem flattenE_spec (st : ThreadsWalker) (hwf : st.wf) :
    ∃ out, st.flattenE = .ok out ∧
      (∀ thr ∈ st.threads, TL.deleted thr = false → ∀ r ∈ thr, FlatRow.row r ∈ out) ∧
      (∀ r : Row, FlatRow.row r ∈ out →
        ∃ thr ∈ st.threads, TL.deleted thr = false ∧ r ∈ thr) := by
  obtain ⟨out, hrun, -, hinc, hsrc⟩ := flattenGo_spec st.extraWidget
    (match st.extraWidget with | ExtraWidget.newReply tid => some tid | _ => none)
    (match st.extraWidget with
      | ExtraWidget.editPost oid => some oid
      | ExtraWidget.editReply otid _ => some otid
      | _ => none)
    st.threads
    (match st.extraWidget with
      | ExtraWidget.newPost => [FlatRow.widget ExtraWidget.newPost]
      | _ => [])
    hwf
  refine ⟨out, ?_, hinc, ?_⟩
  · simp only [ThreadsWalker.flattenE]
    exact hrun
  · intro r hr
    rcases hsrc r hr with h | h
    · exact absurd h (by cases st.extraWidget <;> simp)
    · exact h

/-- C6. A thread whose rows all carry tombstoned items is hidden from the
flattened projection — none of its rows is displayed — while remaining a
member of the registry; and when content for one of its ids re-arrives via
`add` (a non-tombstoned record keyed to this thread), the updated thread is
no longer "deleted" and its rows reappear in the flattened projection.
The hypothesis `huniq` states that the thread's rows occur in no other
registry thread, which holds for the distinct-widget registries the walker
builds. -/
theorem tombstoned_thread_hidden_until_revived (st : ThreadsWalker) (thr : List Row)
    (hwf : st.wf)
    (hmem : thr ∈ st.threads)
    (hdel : TL.deleted thr = true)
    (huniq : ∀ t ∈ st.threads, ∀ r ∈ thr, r ∈ t → t = thr) :
    (∃ out, st.flattenE = .ok out ∧ ∀ r ∈ thr, FlatRow.row r ∉ out) ∧
    thr ∈ st.threads ∧
    (∀ item : Atom, ∀ k : String, ∀ isPost : Bool, ∀ pos : Nat,
      item.tombstone = false →
      threadKeyIsPostE item = .ok (k, isPost) →
      findThreadByIdAux k 0 st.threads = .ok (some (pos, thr)) →
      ∃ st' thr' out', st.add item = .ok st' ∧ thr' ∈ st'.threads ∧
        TL.deleted thr' = false ∧
        st'.flattenE = .ok out' ∧
        ∃ r ∈ thr', FlatRow.row r ∈ out') := by
  refine ⟨?_, hmem, ?_⟩
  · obtain ⟨out, hrun, -, hsrc⟩ := flattenE_spec st hwf
    refine ⟨out, hrun, ?_⟩
    intro r hr hout
    obtain ⟨t, ht, hdf, hrt⟩ := hsrc r hout
    rw [huniq t ht r hr hrt] at hdf
    rw [hdel] at hdf
    exact absurd hdf (by simp)
  · intro item k isPost pos hts hkey hfind
    obtain ⟨st', thr', hadd, hpost, hreply, hwfthr', hperm, hmem', hwf', -⟩ :=
      addW_existing st item k isPost pos thr hwf hkey hfind
    have hfresh : ∃ r ∈ thr', r.tombstone = false := by
      cases isPost with
      | true =>
        have hne : thr ≠ [] := wfThread_ne_nil (hwf thr hmem)
        rw [hpost rfl, set_zero_eq_cons thr (Row.post item) hne]
        exact ⟨Row.post item, List.mem_cons_self _ _, by simp [Row.tombstone, hts]⟩
      | false =>
        exact ⟨Row.reply item, (hreply rfl).1, by simp [Row.tombstone, hts]⟩
    have hdel' : TL.deleted thr' = false := by
      obtain ⟨r, hr, hrt⟩ := hfresh
      simp only [TL.deleted]
      rw [List.all_eq_false]
      exact ⟨r, hr, by simp [hrt]⟩
    obtain ⟨out', hrun', hinc', -⟩ := flattenE_spec st' hwf'
    obtain ⟨r, hr, hrt⟩ := hfresh
    exact ⟨st', thr', out', hadd, hmem', hdel', hrun',
      r, hr, hinc' thr' hmem' hdel' r hr⟩

/-- A retracted post: its atom carries the tombstone flag. -/
def pDelAtom : Atom :=
  { id := "p1", author := "bob", content := "", objectType := "note",
    inReplyTo := none, published := 0, updated := none, tombstone := true }

/-- A walker holding a single, fully tombstoned thread. -/
def stDel : ThreadsWalker :=
  { threads := [[Row.post pDelAtom]], oldestItem := some pDelAtom,
    morePostsRequested := false, extraWidget := .noWidget }

/-- Witness for C6: the single-thread walker whose only thread is fully
tombstoned. -/
theorem tombstoned_thread_hidden_until_revived_witness :
    (∃ out, stDel.flattenE = .ok out ∧
        ∀ r ∈ [Row.post pDelAtom], FlatRow.row r ∉ out) ∧
      [Row.post pDelAtom] ∈ stDel.threads ∧
      (∀ item : Atom, ∀ k : String, ∀ isPost : Bool, ∀ pos : Nat,
        item.tombstone = false →
        threadKeyIsPostE item = .ok (k, isPost) →
        findThreadByIdAux k 0 stDel.threads = .ok (some (pos, [Row.post pDelAtom])) →
        ∃ st' thr' out', stDel.add item = .ok st' ∧ thr' ∈ st'.threads ∧
          TL.deleted thr' = false ∧
          st'.flattenE = .ok out' ∧
          ∃ r ∈ thr', FlatRow.row r ∈ out') :=
  tombstoned_thread_hidden_until_revived stDel [Row.post pDelAtom]
    (fun t ht => by
      rw [show stDel.threads = [[Row.post pDelAtom]] from rfl] at ht
      simp only [List.mem_singleton] at ht
      subst ht
      decide)
    (by decide) (by decide) (by decide)
